import Mathlib

/-!
# KaMi-lib metrics: a shallow embedding of `kami/metrics`

The C functions `min`, `levenshtein` and `hamming` of `cdll/_distance.c` are translated
into Lean functions over explicit machine state; the formulas of `metrics_lib.c` and
`cdll/_score_text_recognition.c` are translated into functions on `CFloat`.

* A `wchar_t *` argument is the finite buffer of wide characters that starts at the
  pointer (`List Nat`).  A read `s[i]` beyond the buffer is undefined behaviour and is
  the result `none`.
* `unsigned int` values are naturals below `2 ^ 32`, with explicit wrap-around;
  `int` values are integers, the conversions between the two are `toInt` and `toUInt`.
* `float` and `double` values are rationals, infinities or NaN (`CFloat`); every
  operation rounds to the nearest value of its type (`round32`, `round64`).
* The variable length array `matrix` is a value of type `Matrix`: its two dimensions
  and a partial map from indices to the values written so far.  Reading a cell outside
  the dimensions, or a cell that has not been written, is `none`.
* `for` loops are `forLoop`, which threads the state through the loop body.
-/

set_option autoImplicit false

namespace KaMi

/-! ## Machine integers -/

/-- Number of values of the C type `unsigned int` (32 bits). -/
def UINT_MOD : Nat := 2 ^ 32

/-- Largest value of the C type `int` (32 bits). -/
def INT_MAX : Nat := 2 ^ 31 - 1

/-- Conversion of an `unsigned int` to `int` (two's complement), as done when a matrix
cell is passed to `min` or returned from `levenshtein`. -/
def toInt (u : Nat) : Int :=
  if u % UINT_MOD ≤ INT_MAX then ((u % UINT_MOD : Nat) : Int)
  else ((u % UINT_MOD : Nat) : Int) - (UINT_MOD : Int)

/-- Conversion of an `int` to `unsigned int`, as done when the result of `min` is
stored in a matrix cell. -/
def toUInt (i : Int) : Nat := (i % (UINT_MOD : Int)).toNat

/-- Addition on `unsigned int`. -/
def uadd (a b : Nat) : Nat := (a + b) % UINT_MOD

/-! ## Wide strings -/

/-- The buffer of a wide string: the code points followed by the terminator. -/
def cstr (A : List Nat) : List Nat := A ++ [0]

/-- A code-point sequence has no embedded terminator. -/
def NoNul (A : List Nat) : Prop := ∀ c ∈ A, c ≠ 0

instance (A : List Nat) : Decidable (NoNul A) := by
  unfold NoNul; infer_instance

/-- The function `wcslen` of the C library: the index of the first terminator.  A buffer
without terminator is read past its end (`none`). -/
def wcslen : List Nat → Option Nat
  | [] => none
  | c :: s => if c = 0 then some 0 else (wcslen s).map (· + 1)

/-! ## `min` -/

/-- The function `min` of `_distance.c`. -/
def min (a b c : Int) : Int :=
  if a ≤ b ∧ a ≤ c then a
  else if b ≤ a ∧ b ≤ c then b
  else if c ≤ a ∧ c ≤ b then c
  else 0

/-! ## The distance matrix -/

/-- The array `unsigned int matrix[rows][cols]`; `cell x y = none` while `matrix[x][y]`
has not been written. -/
structure Matrix where
  rows : Nat
  cols : Nat
  cell : Nat → Nat → Option Nat

/-- A fresh array of the given dimensions: no cell is written. -/
def Matrix.alloc (rows cols : Nat) : Matrix :=
  { rows := rows, cols := cols, cell := fun _ _ => none }

/-- The read `matrix[x][y]`. -/
def Matrix.read (m : Matrix) (x y : Nat) : Option Nat :=
  if x < m.rows ∧ y < m.cols then m.cell x y else none

/-- The assignment `matrix[x][y] = v`. -/
def Matrix.write (m : Matrix) (x y v : Nat) : Option Matrix :=
  if x < m.rows ∧ y < m.cols then
    some { m with cell := fun i j => if i = x ∧ j = y then some v else m.cell i j }
  else none

/-- The loop `for (x = lo; x < lo + n; x++) body`, on a state of type `σ`. -/
def forLoop {σ : Type} (body : Nat → σ → Option σ) : Nat → Nat → σ → Option σ
  | _, 0, s => some s
  | lo, n + 1, s => (body lo s).bind (forLoop body (lo + 1) n)

/-! ## `levenshtein` -/

/-- The body `matrix[x][0] = matrix[x-1][0] + 1` of the first loop. -/
def firstColumnStep (x : Nat) (m : Matrix) : Option Matrix :=
  (m.read (x - 1) 0).bind fun v => m.write x 0 (uadd v 1)

/-- The body `matrix[0][y] = matrix[0][y-1] + 1` of the second loop. -/
def firstRowStep (y : Nat) (m : Matrix) : Option Matrix :=
  (m.read 0 (y - 1)).bind fun v => m.write 0 y (uadd v 1)

/-- The body of the inner loop:
`matrix[x][y] = min(matrix[x-1][y] + 1, matrix[x][y-1] + 1,
                    matrix[x-1][y-1] + (s1[y-1] == s2[x-1] ? 0 : 1))`. -/
def cellStep (s1 s2 : List Nat) (x y : Nat) (m : Matrix) : Option Matrix :=
  (m.read (x - 1) y).bind fun up =>
  (m.read x (y - 1)).bind fun left =>
  (m.read (x - 1) (y - 1)).bind fun diag =>
  (s1[y - 1]?).bind fun c1 =>
  (s2[x - 1]?).bind fun c2 =>
  m.write x y
    (toUInt (min (toInt (uadd up 1)) (toInt (uadd left 1))
      (toInt (uadd diag (if c1 = c2 then 0 else 1)))))

/-- The statements of `levenshtein` up to the `return`: the filled matrix together with
`s1len` and `s2len`.  The lengths are stored in `unsigned int` variables; an array
dimension `s2len+1` or `s1len+1` that wraps to `0` is undefined behaviour. -/
def levenshteinMatrix (s1 s2 : List Nat) : Option (Matrix × Nat × Nat) :=
  (wcslen s1).bind fun n1 =>
  (wcslen s2).bind fun n2 =>
  let s1len := n1 % UINT_MOD
  let s2len := n2 % UINT_MOD
  if uadd s2len 1 = 0 ∨ uadd s1len 1 = 0 then none
  else
    ((Matrix.alloc (uadd s2len 1) (uadd s1len 1)).write 0 0 0).bind fun m0 =>
    (forLoop firstColumnStep 1 s2len m0).bind fun m1 =>
    (forLoop firstRowStep 1 s1len m1).bind fun m2 =>
    (forLoop (fun x => forLoop (cellStep s1 s2 x) 1 s1len) 1 s2len m2).bind fun m3 =>
    some (m3, s1len, s2len)

/-- The function `levenshtein` of `_distance.c`: `return(matrix[s2len][s1len])`. -/
def levenshtein (s1 s2 : List Nat) : Option Int :=
  (levenshteinMatrix s1 s2).bind fun r =>
  (r.1.read r.2.2 r.2.1).map toInt

/-! ## `hamming` -/

/-- The `while` loop of `hamming`, started at index `i` with `count` mismatches so far.
`fuel` bounds the number of iterations; the loop leaves the buffer of `str1` before the
fuel given by `hamming` runs out.  The increments `count++` and `i++` are on `int`:
overflow is undefined behaviour. -/
def hammingLoop (str1 str2 : List Nat) : Nat → Nat → Nat → Option Int
  | 0, _, _ => none
  | fuel + 1, i, count =>
    (str1[i]?).bind fun c1 =>
    if c1 ≠ 0 then
      (str2[i]?).bind fun c2 =>
      let count1 := if c1 ≠ c2 then count + 1 else count
      if INT_MAX < count1 ∨ INT_MAX < i + 1 then none
      else hammingLoop str1 str2 fuel (i + 1) count1
    else some (count : Int)

/-- The function `hamming` of `_distance.c`. -/
def hamming (str1 str2 : List Nat) : Option Int :=
  hammingLoop str1 str2 (str1.length + 1) 0 0

/-! ## Values of type `float` and `double`

The formulas of `metrics_lib.c` and `_score_text_recognition.c` compute on `float`
(IEEE 754 binary32), and `1.0 - wer` is computed on `double` (binary64).  A value of
either type is the rational it stands for, an infinity, or NaN.  Every conversion and
every operation rounds its exact result to the nearest value of the type, ties to the
even significand (`roundBinary`), and overflows to an infinity.  The sign of zero is
outside the model: a zero divisor is `+0` in all of these formulas (an `int` converted
to `float`, or the sum of two such). -/

/-- A value of the C types `float` and `double`. -/
inductive CFloat
  | finite (q : ℚ)
  | posInf
  | negInf
  | nan
  deriving DecidableEq

/-- Rounding of a rational to the nearest integer, ties to the even one. -/
def roundHalfEven (x : ℚ) : Int :=
  if x - (⌊x⌋ : ℚ) < 1 / 2 then ⌊x⌋
  else if 1 / 2 < x - (⌊x⌋ : ℚ) then ⌊x⌋ + 1
  else if ⌊x⌋ % 2 = 0 then ⌊x⌋ else ⌊x⌋ + 1

/-- The exponent of the unit in the last place at `x`, for a significand of `prec` bits
and the least normal exponent `emin`: below `2 ^ emin` the spacing is that of the
subnormal values. -/
def ulpExponent (prec : Nat) (emin : Int) (x : ℚ) : Int :=
  Max.max (Int.log 2 |x|) emin - ((prec : Int) - 1)

/-- IEEE 754 rounding to nearest, ties to even, into the binary format with `prec`
significand bits and exponents from `emin` to `emax`: `x` is rounded to a multiple of
its unit in the last place, and a result of magnitude `2 ^ (emax + 1)` or more is an
infinity. -/
def roundBinary (prec : Nat) (emin emax : Int) (x : ℚ) : CFloat :=
  let u : ℚ := (2 : ℚ) ^ ulpExponent prec emin x
  let y : ℚ := (roundHalfEven (x / u) : ℚ) * u
  if (2 : ℚ) ^ (emax + 1) ≤ y then .posInf
  else if y ≤ -(2 : ℚ) ^ (emax + 1) then .negInf
  else .finite y

/-- Rounding to `float` (binary32: 24 bit significand, exponents `-126` to `127`). -/
def round32 (x : ℚ) : CFloat := roundBinary 24 (-126) 127 x

/-- Rounding to `double` (binary64: 53 bit significand, exponents `-1022` to `1023`). -/
def round64 (x : ℚ) : CFloat := roundBinary 53 (-1022) 1023 x

/-- The finite values of a binary format: `m * 2 ^ k` with a significand `m` of at most
`prec` bits and an exponent `k` not below that of the subnormal values, of magnitude
below `2 ^ (emax + 1)`. -/
def IsBinary (prec : Nat) (emin emax : Int) (x : ℚ) : Prop :=
  ∃ m k : Int, |m| < 2 ^ prec ∧ emin - ((prec : Int) - 1) ≤ k ∧
    |(m : ℚ) * (2 : ℚ) ^ k| < (2 : ℚ) ^ (emax + 1) ∧ x = (m : ℚ) * (2 : ℚ) ^ k

/-- The finite values of the type `float`. -/
def IsBinary32 (x : ℚ) : Prop := IsBinary 24 (-126) 127 x

/-- The finite values of the type `double`. -/
def IsBinary64 (x : ℚ) : Prop := IsBinary 53 (-1022) 1023 x

/-- The conversion `(float)n` of an `int`. -/
def CFloat.ofInt (n : Int) : CFloat := round32 (n : ℚ)

/-- The conversion of a `double` to `float`, as done by the `return` of a function of
type `float`. -/
def CFloat.toFloat : CFloat → CFloat
  | .finite q => round32 q
  | x => x

/-- The test `isfinite`. -/
def CFloat.isFinite : CFloat → Bool
  | .finite _ => true
  | _ => false

/-- The operator `/` on `float`. -/
def CFloat.div : CFloat → CFloat → CFloat
  | .nan, _ => .nan
  | _, .nan => .nan
  | .finite a, .finite b =>
    if b = 0 then (if a = 0 then .nan else if 0 < a then .posInf else .negInf)
    else round32 (a / b)
  | .finite _, .posInf => .finite 0
  | .finite _, .negInf => .finite 0
  | .posInf, .finite b => if 0 ≤ b then .posInf else .negInf
  | .negInf, .finite b => if 0 ≤ b then .negInf else .posInf
  | .posInf, .posInf => .nan
  | .posInf, .negInf => .nan
  | .negInf, .posInf => .nan
  | .negInf, .negInf => .nan

/-- The operator `*` on `float`. -/
def CFloat.mul : CFloat → CFloat → CFloat
  | .nan, _ => .nan
  | _, .nan => .nan
  | .finite a, .finite b => round32 (a * b)
  | .finite a, .posInf => if a = 0 then .nan else if 0 < a then .posInf else .negInf
  | .finite a, .negInf => if a = 0 then .nan else if 0 < a then .negInf else .posInf
  | .posInf, .finite b => if b = 0 then .nan else if 0 < b then .posInf else .negInf
  | .negInf, .finite b => if b = 0 then .nan else if 0 < b then .negInf else .posInf
  | .posInf, .posInf => .posInf
  | .posInf, .negInf => .negInf
  | .negInf, .posInf => .negInf
  | .negInf, .negInf => .posInf

/-- The operator `+` on `float`. -/
def CFloat.add : CFloat → CFloat → CFloat
  | .nan, _ => .nan
  | _, .nan => .nan
  | .finite a, .finite b => round32 (a + b)
  | .finite _, .posInf => .posInf
  | .finite _, .negInf => .negInf
  | .posInf, .finite _ => .posInf
  | .negInf, .finite _ => .negInf
  | .posInf, .posInf => .posInf
  | .posInf, .negInf => .nan
  | .negInf, .posInf => .nan
  | .negInf, .negInf => .negInf

/-- The operator `-`, with the rounding `rnd` of the type in which it is computed. -/
def CFloat.subWith (rnd : ℚ → CFloat) : CFloat → CFloat → CFloat
  | .nan, _ => .nan
  | _, .nan => .nan
  | .finite a, .finite b => rnd (a - b)
  | .finite _, .posInf => .negInf
  | .finite _, .negInf => .posInf
  | .posInf, .finite _ => .posInf
  | .negInf, .finite _ => .negInf
  | .posInf, .posInf => .nan
  | .posInf, .negInf => .posInf
  | .negInf, .posInf => .negInf
  | .negInf, .negInf => .nan

/-- The operator `-` on `float`. -/
def CFloat.sub (a b : CFloat) : CFloat := CFloat.subWith round32 a b

/-- The operator `-` on `double`. -/
def CFloat.subDouble (a b : CFloat) : CFloat := CFloat.subWith round64 a b

/-! ## The formulas of `metrics_lib.c` -/

/-- The function `WordErrorRate`:
`return (float)lev_distance_word / (float)total_reference_word;`. -/
def WordErrorRate (lev_distance_word total_reference_word : Int) : CFloat :=
  CFloat.div (CFloat.ofInt lev_distance_word) (CFloat.ofInt total_reference_word)

/-- The function `CharacterErrorRate`:
`return (float)lev_distance_char / (float)total_reference_char;`. -/
def CharacterErrorRate (lev_distance_char total_reference_char : Int) : CFloat :=
  CFloat.div (CFloat.ofInt lev_distance_char) (CFloat.ofInt total_reference_char)

/-- The function `WordAccuracy`: `return (1.0 - wer);`.  The constant `1.0` is a
`double`, so `wer` is widened (exactly), the subtraction is computed on `double`, and
the result is converted to `float` by the `return`. -/
def WordAccuracy (wer : CFloat) : CFloat :=
  CFloat.toFloat (CFloat.subDouble (.finite 1) wer)

/-- The function `CharacterInformationPreserve`:
`float h = (float)hits;
 return (h/(float)total_reference_char)*(h/(float)total_prediction_char);`. -/
def CharacterInformationPreserve (hits total_reference_char total_prediction_char : Int) :
    CFloat :=
  let h := CFloat.ofInt hits
  CFloat.mul (CFloat.div h (CFloat.ofInt total_reference_char))
    (CFloat.div h (CFloat.ofInt total_prediction_char))

/-- The function `CharacterInformationLost`: `return (1.0 - cip);`, computed on `double`
like `WordAccuracy`. -/
def CharacterInformationLost (cip : CFloat) : CFloat :=
  CFloat.toFloat (CFloat.subDouble (.finite 1) cip)

/-- The function `MatchErrorRate`:
`return (float)lev_distance_char/((float)hits+(float)lev_distance_char);`. -/
def MatchErrorRate (hits lev_distance_char : Int) : CFloat :=
  CFloat.div (CFloat.ofInt lev_distance_char)
    (CFloat.add (CFloat.ofInt hits) (CFloat.ofInt lev_distance_char))

/-! ## The formulas of `cdll/_score_text_recognition.c` -/

/-- The function `wer`: `return (float) lev_dist/total_words_reference;` (the cast applies
to `lev_dist`, the divisor is converted to `float` by the division). -/
def wer (total_words_reference lev_dist : Int) : CFloat :=
  CFloat.div (CFloat.ofInt lev_dist) (CFloat.ofInt total_words_reference)

/-- The function `cer`: `return (float) lev_dist/total_char_reference;`. -/
def cer (total_char_reference lev_dist : Int) : CFloat :=
  CFloat.div (CFloat.ofInt lev_dist) (CFloat.ofInt total_char_reference)

/-- The function `wacc`: `return (float) (1 - wer(total_words_reference, lev_dist));`.
The constant `1` is an `int`, converted to `float`; the subtraction is computed on
`float`. -/
def wacc (total_words_reference lev_dist : Int) : CFloat :=
  CFloat.sub (CFloat.ofInt 1) (wer total_words_reference lev_dist)

/-! ## Reference definitions, following the specification -/

/-- One row of the reference recursion: the distance from `a :: A` to each suffix of the
second sequence, given the distances `prev` from `A` and the length `lenA` of `A`. -/
def editRow (a : Nat) (prev : List Nat → Nat) (lenA : Nat) : List Nat → Nat
  | [] => lenA + 1
  | b :: B =>
    Min.min (prev (b :: B) + 1)
      (Min.min (editRow a prev lenA B + 1) (prev B + if a = b then 0 else 1))

/-- The standard recursive definition of the edit distance with unit costs (see
`editDistance_nil_left`, `editDistance_nil_right` and `editDistance_cons_cons` for its
three equations). -/
def editDistance : List Nat → List Nat → Nat
  | [], B => B.length
  | a :: A, B => editRow a (editDistance A) A.length B

/-- The relation `Edits A B n`: the sequence `A` is transformed into `B` by `n` single
code-point insertions, deletions and substitutions (code points that are kept cost
nothing). -/
inductive Edits : List Nat → List Nat → Nat → Prop
  | done : Edits [] [] 0
  | keep (a : Nat) {A B : List Nat} {n : Nat} : Edits A B n → Edits (a :: A) (a :: B) n
  | delete (a : Nat) {A B : List Nat} {n : Nat} : Edits A B n → Edits (a :: A) B (n + 1)
  | insert (b : Nat) {A B : List Nat} {n : Nat} : Edits A B n → Edits A (b :: B) (n + 1)
  | substitute (a b : Nat) {A B : List Nat} {n : Nat} :
      Edits A B n → Edits (a :: A) (b :: B) (n + 1)

/-- Number of indices `i < n` with `A[i] ≠ B[i]`. -/
def mismatchCount (n : Nat) (A B : List Nat) : Nat :=
  ((List.range n).filter (fun i => decide (A[i]? ≠ B[i]?))).length

/-! ## The invariant of the distance matrix -/

/-- The value that cell `(i, j)` must hold: the reference distance between the first
`j` code points of `seq1` and the first `i` code points of `seq2`. -/
def prefixDistance (A B : List Nat) (i j : Nat) : Nat :=
  editDistance (A.take j) (B.take i)

/-- The matrix has the dimensions declared by `levenshtein`, and every cell of the set
`P` is written with the distance of the two prefixes. -/
def Filled (A B : List Nat) (P : Nat → Nat → Prop) (m : Matrix) : Prop :=
  m.rows = B.length + 1 ∧ m.cols = A.length + 1 ∧
    ∀ i j, i ≤ B.length → j ≤ A.length → P i j → m.cell i j = some (prefixDistance A B i j)

/-! ## Sample inputs -/

/-- The code points of `"kitten"`. -/
def kitten : List Nat := [107, 105, 116, 116, 101, 110]

/-- The code points of `"sitting"`. -/
def sitting : List Nat := [115, 105, 116, 116, 105, 110, 103]

/-- The code points of `"abc"`. -/
def abc : List Nat := [97, 98, 99]

/-- The code points of `"karolin"`. -/
def karolin : List Nat := [107, 97, 114, 111, 108, 105, 110]

/-- The code points of `"kathrin"`. -/
def kathrin : List Nat := [107, 97, 116, 104, 114, 105, 110]

/-! ## The reference edit distance -/

theorem editDistance_nil_left (B : List Nat) : editDistance [] B = B.length := rfl

theorem editDistance_nil_right (A : List Nat) : editDistance A [] = A.length := by
  cases A <;> rfl

theorem editDistance_cons_cons (a b : Nat) (A B : List Nat) :
    editDistance (a :: A) (b :: B) =
      Min.min (editDistance A (b :: B) + 1)
        (Min.min (editDistance (a :: A) B + 1)
          (editDistance A B + if a = b then 0 else 1)) := rfl

theorem editDistance_comm : ∀ A B : List Nat, editDistance A B = editDistance B A
  | [], B => by rw [editDistance_nil_left, editDistance_nil_right]
  | a :: A, [] => by rw [editDistance_nil_left, editDistance_nil_right]
  | a :: A, b :: B => by
    rw [editDistance_cons_cons, editDistance_cons_cons, editDistance_comm A (b :: B),
      editDistance_comm (a :: A) B, editDistance_comm A B]
    have h : (if a = b then 0 else 1) = (if b = a then 0 else 1) := by
      by_cases hab : a = b
      · subst hab; rfl
      · rw [if_neg hab, if_neg (fun h => hab h.symm)]
    rw [h]
    omega

theorem editDistance_cons_left_le (a : Nat) :
    ∀ A B : List Nat, editDistance (a :: A) B ≤ editDistance A B + 1
  | A, [] => by simp [editDistance_nil_right]
  | A, b :: B => by rw [editDistance_cons_cons]; omega

theorem editDistance_cons_right_le (b : Nat) (A B : List Nat) :
    editDistance A (b :: B) ≤ editDistance A B + 1 := by
  rw [editDistance_comm A (b :: B), editDistance_comm A B]
  exact editDistance_cons_left_le b B A

theorem editDistance_cons_cons_le (a b : Nat) (A B : List Nat) :
    editDistance (a :: A) (b :: B) ≤ editDistance A B + if a = b then 0 else 1 := by
  rw [editDistance_cons_cons]; omega

/-- The reference distance is the cost of some edit script. -/
theorem edits_editDistance : ∀ A B : List Nat, Edits A B (editDistance A B)
  | [], [] => Edits.done
  | [], b :: B => by
    have h := Edits.insert b (edits_editDistance [] B)
    simpa [editDistance_nil_left] using h
  | a :: A, [] => by
    have h := Edits.delete a (edits_editDistance A [])
    simpa [editDistance_nil_right] using h
  | a :: A, b :: B => by
    have h1 := Edits.delete a (edits_editDistance A (b :: B))
    have h2 := Edits.insert b (edits_editDistance (a :: A) B)
    rw [editDistance_cons_cons]
    by_cases hab : a = b
    · have h3 := Edits.keep a (edits_editDistance A B)
      subst hab
      rw [if_pos rfl]
      rcases Nat.lt_or_ge (editDistance A (a :: B) + 1)
          (Min.min (editDistance (a :: A) B + 1) (editDistance A B + 0)) with h | h
      · rw [Nat.min_eq_left (Nat.le_of_lt h)]; exact h1
      · rw [Nat.min_eq_right h]
        rcases Nat.lt_or_ge (editDistance (a :: A) B + 1) (editDistance A B + 0) with h' | h'
        · rw [Nat.min_eq_left (Nat.le_of_lt h')]; exact h2
        · rw [Nat.min_eq_right h']; exact h3
    · have h3 := Edits.substitute a b (edits_editDistance A B)
      rw [if_neg hab]
      rcases Nat.lt_or_ge (editDistance A (b :: B) + 1)
          (Min.min (editDistance (a :: A) B + 1) (editDistance A B + 1)) with h | h
      · rw [Nat.min_eq_left (Nat.le_of_lt h)]; exact h1
      · rw [Nat.min_eq_right h]
        rcases Nat.lt_or_ge (editDistance (a :: A) B + 1) (editDistance A B + 1) with h' | h'
        · rw [Nat.min_eq_left (Nat.le_of_lt h')]; exact h2
        · rw [Nat.min_eq_right h']; exact h3
termination_by A B => A.length + B.length

/-- No edit script is cheaper than the reference distance. -/
theorem editDistance_le_of_edits {A B : List Nat} {n : Nat} (h : Edits A B n) :
    editDistance A B ≤ n := by
  induction h with
  | done => simp [editDistance_nil_left]
  | @keep a A B n _ ih =>
    have := editDistance_cons_cons_le a a A B
    simp only [if_true] at this
    omega
  | @delete a A B n _ ih =>
    have := editDistance_cons_left_le a A B
    omega
  | @insert b A B n _ ih =>
    have := editDistance_cons_right_le b A B
    omega
  | @substitute a b A B n _ ih =>
    have := editDistance_cons_cons_le a b A B
    split at this <;> omega

theorem Edits.snoc_delete (a : Nat) {A B : List Nat} {n : Nat} (h : Edits A B n) :
    Edits (A ++ [a]) B (n + 1) := by
  induction h with
  | done => exact Edits.delete a Edits.done
  | @keep x A B n _ ih => exact Edits.keep x ih
  | @delete x A B n _ ih => exact Edits.delete x ih
  | @insert x A B n _ ih => exact Edits.insert x ih
  | @substitute x y A B n _ ih => exact Edits.substitute x y ih

theorem Edits.snoc_insert (b : Nat) {A B : List Nat} {n : Nat} (h : Edits A B n) :
    Edits A (B ++ [b]) (n + 1) := by
  induction h with
  | done => exact Edits.insert b Edits.done
  | @keep x A B n _ ih => exact Edits.keep x ih
  | @delete x A B n _ ih => exact Edits.delete x ih
  | @insert x A B n _ ih => exact Edits.insert x ih
  | @substitute x y A B n _ ih => exact Edits.substitute x y ih

theorem Edits.snoc_keep (a : Nat) {A B : List Nat} {n : Nat} (h : Edits A B n) :
    Edits (A ++ [a]) (B ++ [a]) n := by
  induction h with
  | done => exact Edits.keep a Edits.done
  | @keep x A B n _ ih => exact Edits.keep x ih
  | @delete x A B n _ ih => exact Edits.delete x ih
  | @insert x A B n _ ih => exact Edits.insert x ih
  | @substitute x y A B n _ ih => exact Edits.substitute x y ih

theorem Edits.snoc_substitute (a b : Nat) {A B : List Nat} {n : Nat} (h : Edits A B n) :
    Edits (A ++ [a]) (B ++ [b]) (n + 1) := by
  induction h with
  | done => exact Edits.substitute a b Edits.done
  | @keep x A B n _ ih => exact Edits.keep x ih
  | @delete x A B n _ ih => exact Edits.delete x ih
  | @insert x A B n _ ih => exact Edits.insert x ih
  | @substitute x y A B n _ ih => exact Edits.substitute x y ih

/-- An edit script read backwards is an edit script of the reversed sequences. -/
theorem Edits.reverse {A B : List Nat} {n : Nat} (h : Edits A B n) :
    Edits A.reverse B.reverse n := by
  induction h with
  | done => exact Edits.done
  | @keep x A B n _ ih => simpa using Edits.snoc_keep x ih
  | @delete x A B n _ ih => simpa using Edits.snoc_delete x ih
  | @insert x A B n _ ih => simpa using Edits.snoc_insert x ih
  | @substitute x y A B n _ ih => simpa using Edits.snoc_substitute x y ih

theorem editDistance_reverse_le (A B : List Nat) :
    editDistance A.reverse B.reverse ≤ editDistance A B :=
  editDistance_le_of_edits (edits_editDistance A B).reverse

theorem editDistance_reverse (A B : List Nat) :
    editDistance A.reverse B.reverse = editDistance A B := by
  apply Nat.le_antisymm (editDistance_reverse_le A B)
  have h := editDistance_reverse_le A.reverse B.reverse
  simpa using h

/-- The recursion of the reference distance, read at the last elements: this is the
form in which the matrix is filled. -/
theorem editDistance_concat_concat (a b : Nat) (A B : List Nat) :
    editDistance (A ++ [a]) (B ++ [b]) =
      Min.min (editDistance A (B ++ [b]) + 1)
        (Min.min (editDistance (A ++ [a]) B + 1)
          (editDistance A B + if a = b then 0 else 1)) := by
  have h1 := editDistance_reverse (A ++ [a]) (B ++ [b])
  have h2 := editDistance_reverse A (B ++ [b])
  have h3 := editDistance_reverse (A ++ [a]) B
  have h4 := editDistance_reverse A B
  simp only [List.reverse_append, List.reverse_cons, List.reverse_nil, List.nil_append,
    List.singleton_append] at h1 h2 h3
  rw [← h1, ← h2, ← h3, ← h4, editDistance_cons_cons]

theorem editDistance_le_max : ∀ A B : List Nat, editDistance A B ≤ Max.max A.length B.length
  | [], B => by simp [editDistance_nil_left]
  | a :: A, [] => by simp [editDistance_nil_right]
  | a :: A, b :: B => by
    have h := editDistance_cons_cons_le a b A B
    have ih := editDistance_le_max A B
    simp only [List.length_cons]
    split at h <;> omega

theorem length_le_editDistance_add : ∀ A B : List Nat, A.length ≤ editDistance A B + B.length
  | [], B => by simp
  | a :: A, [] => by simp [editDistance_nil_right]
  | a :: A, b :: B => by
    have h1 := length_le_editDistance_add A (b :: B)
    have h2 := length_le_editDistance_add (a :: A) B
    have h3 := length_le_editDistance_add A B
    rw [editDistance_cons_cons]
    simp only [List.length_cons] at *
    split <;> omega
termination_by A B => A.length + B.length

theorem editDistance_self : ∀ A : List Nat, editDistance A A = 0
  | [] => rfl
  | a :: A => by
    have h := editDistance_cons_cons_le a a A A
    rw [editDistance_self A] at h
    simpa using h

theorem substCost_triangle (a b c : Nat) :
    (if a = c then 0 else 1) ≤ (if a = b then 0 else 1) + (if b = c then 0 else 1) := by
  by_cases hab : a = b
  · subst hab; simp
  · by_cases hbc : b = c
    · subst hbc; simp
    · simp only [if_neg hab, if_neg hbc]; split <;> omega

theorem substCost_le_one (a b : Nat) : (if a = b then 0 else 1) ≤ 1 := by
  by_cases h : a = b
  · simp [h]
  · simp [h]

theorem editDistance_triangle :
    ∀ A B C : List Nat, editDistance A C ≤ editDistance A B + editDistance B C
  | [], B, C => by
    have h := length_le_editDistance_add C B
    rw [editDistance_comm C B] at h
    rw [editDistance_nil_left, editDistance_nil_left]; omega
  | a :: A, B, [] => by
    have h := length_le_editDistance_add (a :: A) B
    rw [editDistance_nil_right, editDistance_nil_right]; omega
  | a :: A, [], c :: C => by
    rw [editDistance_nil_right, editDistance_nil_left]
    have h := editDistance_le_max (a :: A) (c :: C)
    omega
  | a :: A, b :: B, c :: C => by
    have t1 := editDistance_triangle A (b :: B) (c :: C)
    have t2 := editDistance_triangle (a :: A) B (c :: C)
    have t3 := editDistance_triangle (a :: A) (b :: B) C
    have t4 := editDistance_triangle A B (c :: C)
    have t5 := editDistance_triangle (a :: A) B C
    have t6 := editDistance_triangle A B C
    have l1 := editDistance_cons_left_le a A (c :: C)
    have l2 := editDistance_cons_right_le c (a :: A) C
    have l3 := editDistance_cons_cons_le a c A C
    have eAB := editDistance_cons_cons a b A B
    have eBC := editDistance_cons_cons b c B C
    have hac := substCost_triangle a b c
    generalize (if a = c then 0 else 1) = x at *
    generalize (if a = b then 0 else 1) = y at *
    generalize (if b = c then 0 else 1) = z at *
    omega
termination_by A B C => A.length + B.length + C.length


/-! ## Machine integers on values in range -/

theorem uadd_of_lt {a b : Nat} (h : a + b < UINT_MOD) : uadd a b = a + b :=
  Nat.mod_eq_of_lt h

theorem toInt_of_le {u : Nat} (h : u ≤ INT_MAX) : toInt u = (u : Int) := by
  have hu : u % UINT_MOD = u := Nat.mod_eq_of_lt (by unfold INT_MAX at h; unfold UINT_MOD; omega)
  unfold toInt
  rw [hu, if_pos h]

theorem toUInt_natCast {n : Nat} (h : n < UINT_MOD) : toUInt (n : Int) = n := by
  unfold toUInt
  unfold UINT_MOD at *
  omega

theorem min_natCast (a b c : Nat) :
    min (a : Int) (b : Int) (c : Int) = ((Min.min a (Min.min b c) : Nat) : Int) := by
  unfold min
  split_ifs <;> omega

/-- The value stored by the inner loop, when the three neighbours are small. -/
theorem cell_value (up left diag cost : Nat) (hup : up < INT_MAX) (hleft : left < INT_MAX)
    (hdiag : diag < INT_MAX) (hcost : cost ≤ 1) :
    toUInt (min (toInt (uadd up 1)) (toInt (uadd left 1)) (toInt (uadd diag cost))) =
      Min.min (up + 1) (Min.min (left + 1) (diag + cost)) := by
  have hI : INT_MAX < UINT_MOD := by decide
  rw [uadd_of_lt (by omega), uadd_of_lt (by omega), uadd_of_lt (by omega),
    toInt_of_le (by omega), toInt_of_le (by omega), toInt_of_le (by omega), min_natCast,
    toUInt_natCast (by omega)]

/-! ## Wide strings -/

theorem wcslen_append_nul : ∀ (A rest : List Nat), NoNul A →
    wcslen (A ++ 0 :: rest) = some A.length
  | [], _, _ => by simp [wcslen]
  | a :: A, rest, h => by
    have ha : a ≠ 0 := h a (List.mem_cons_self a A)
    have hA : NoNul A := fun c hc => h c (List.mem_cons_of_mem a hc)
    simp [wcslen, ha, wcslen_append_nul A rest hA]

theorem wcslen_cstr {A : List Nat} (h : NoNul A) : wcslen (cstr A) = some A.length :=
  wcslen_append_nul A [] h

theorem cstr_getElem? {A : List Nat} {i : Nat} (h : i < A.length) :
    (cstr A)[i]? = some A[i] := by
  unfold cstr
  rw [List.getElem?_append_left h, List.getElem?_eq_getElem h]

theorem cstr_getElem?_length (A : List Nat) : (cstr A)[A.length]? = some 0 := by
  unfold cstr
  simp

/-! ## Loops -/

/-- Invariant rule for `forLoop`: a loop whose body preserves the invariant returns, and
the invariant holds at the exit. -/
theorem forLoop_inv {σ : Type} (Inv : Nat → σ → Prop) (body : Nat → σ → Option σ) :
    ∀ (n lo : Nat) (s : σ), Inv lo s →
      (∀ x t, lo ≤ x → x < lo + n → Inv x t → ∃ t', body x t = some t' ∧ Inv (x + 1) t') →
      ∃ s', forLoop body lo n s = some s' ∧ Inv (lo + n) s'
  | 0, lo, s, h0, _ => ⟨s, rfl, h0⟩
  | n + 1, lo, s, h0, hstep => by
    obtain ⟨t, ht, hInv⟩ := hstep lo s (Nat.le_refl lo) (by omega) h0
    obtain ⟨s', hs', hInv'⟩ := forLoop_inv Inv body n (lo + 1) t hInv
      (fun x u hx1 hx2 hu => hstep x u (by omega) (by omega) hu)
    refine ⟨s', ?_, ?_⟩
    · simp only [forLoop, ht, Option.some_bind]; exact hs'
    · have e : lo + (n + 1) = lo + 1 + n := by omega
      rw [e]; exact hInv'


/-! ## The matrix invariant -/

theorem prefixDistance_zero_right (A B : List Nat) (i : Nat) (hi : i ≤ B.length) :
    prefixDistance A B i 0 = i := by
  simp [prefixDistance, editDistance_nil_left, hi]

theorem prefixDistance_zero_left (A B : List Nat) (j : Nat) (hj : j ≤ A.length) :
    prefixDistance A B 0 j = j := by
  simp [prefixDistance, editDistance_nil_right, hj]

theorem prefixDistance_le (A B : List Nat) (i j : Nat) :
    prefixDistance A B i j ≤ Max.max A.length B.length := by
  have h := editDistance_le_max (A.take j) (B.take i)
  simp only [List.length_take] at h
  unfold prefixDistance
  omega

theorem prefixDistance_length (A B : List Nat) :
    prefixDistance A B B.length A.length = editDistance A B := by
  simp [prefixDistance]

theorem prefixDistance_succ_succ (A B : List Nat) (i j : Nat) (hi : i < B.length)
    (hj : j < A.length) :
    prefixDistance A B (i + 1) (j + 1) =
      Min.min (prefixDistance A B i (j + 1) + 1)
        (Min.min (prefixDistance A B (i + 1) j + 1)
          (prefixDistance A B i j + if A[j] = B[i] then 0 else 1)) := by
  unfold prefixDistance
  rw [← List.take_concat_get A j hj, ← List.take_concat_get B i hi,
    List.concat_eq_append, List.concat_eq_append, editDistance_concat_concat]
  omega

theorem Filled.mono {A B : List Nat} {P Q : Nat → Nat → Prop} {m : Matrix}
    (h : Filled A B P m)
    (hPQ : ∀ i j, i ≤ B.length → j ≤ A.length → Q i j → P i j) : Filled A B Q m :=
  ⟨h.1, h.2.1, fun i j hi hj hq => h.2.2 i j hi hj (hPQ i j hi hj hq)⟩

theorem Filled.read {A B : List Nat} {P : Nat → Nat → Prop} {m : Matrix}
    (h : Filled A B P m) {x y : Nat} (hx : x ≤ B.length) (hy : y ≤ A.length) (hp : P x y) :
    m.read x y = some (prefixDistance A B x y) := by
  unfold Matrix.read
  rw [if_pos ⟨by rw [h.1]; omega, by rw [h.2.1]; omega⟩]
  exact h.2.2 x y hx hy hp

theorem Filled.write {A B : List Nat} {P : Nat → Nat → Prop} {m : Matrix}
    (h : Filled A B P m) {x y v : Nat} (hx : x ≤ B.length) (hy : y ≤ A.length)
    (hv : v = prefixDistance A B x y) :
    ∃ m', m.write x y v = some m' ∧ Filled A B (fun i j => P i j ∨ (i = x ∧ j = y)) m' := by
  unfold Matrix.write
  rw [if_pos ⟨by rw [h.1]; omega, by rw [h.2.1]; omega⟩]
  refine ⟨_, rfl, h.1, h.2.1, ?_⟩
  intro i j hi hj hp
  by_cases hij : i = x ∧ j = y
  · simp only [hij, and_self, if_true, hv]
  · simp only [hij, if_false]
    rcases hp with hp | hp
    · exact h.2.2 i j hi hj hp
    · exact absurd hp hij


/-! ## The three loops of `levenshtein` -/

theorem firstColumnStep_filled {A B : List Nat} (hlB : B.length < INT_MAX) {x : Nat}
    {m : Matrix} (hx1 : 1 ≤ x) (hx : x ≤ B.length)
    (h : Filled A B (fun i j => j = 0 ∧ i < x) m) :
    ∃ m', firstColumnStep x m = some m' ∧ Filled A B (fun i j => j = 0 ∧ i < x + 1) m' := by
  have hI : INT_MAX < UINT_MOD := by decide
  have hr := h.read (x := x - 1) (y := 0) (by omega) (by omega) ⟨rfl, by omega⟩
  rw [prefixDistance_zero_right A B (x - 1) (by omega)] at hr
  have hv : uadd (x - 1) 1 = prefixDistance A B x 0 := by
    rw [prefixDistance_zero_right A B x hx, uadd_of_lt (by omega)]; omega
  obtain ⟨m', hm', hF⟩ := h.write (x := x) (y := 0) hx (by omega) hv
  refine ⟨m', ?_, hF.mono ?_⟩
  · simp only [firstColumnStep, hr, Option.some_bind]; exact hm'
  · intro i j _ _ hq
    by_cases hi : i = x
    · exact Or.inr ⟨hi, hq.1⟩
    · exact Or.inl ⟨hq.1, by omega⟩

theorem firstRowStep_filled {A B : List Nat} (hlA : A.length < INT_MAX) {y : Nat}
    {m : Matrix} (hy1 : 1 ≤ y) (hy : y ≤ A.length)
    (h : Filled A B (fun i j => j = 0 ∨ (i = 0 ∧ j < y)) m) :
    ∃ m', firstRowStep y m = some m' ∧
      Filled A B (fun i j => j = 0 ∨ (i = 0 ∧ j < y + 1)) m' := by
  have hI : INT_MAX < UINT_MOD := by decide
  have hr := h.read (x := 0) (y := y - 1) (by omega) (by omega) (Or.inr ⟨rfl, by omega⟩)
  rw [prefixDistance_zero_left A B (y - 1) (by omega)] at hr
  have hv : uadd (y - 1) 1 = prefixDistance A B 0 y := by
    rw [prefixDistance_zero_left A B y hy, uadd_of_lt (by omega)]; omega
  obtain ⟨m', hm', hF⟩ := h.write (x := 0) (y := y) (by omega) hy hv
  refine ⟨m', ?_, hF.mono ?_⟩
  · simp only [firstRowStep, hr, Option.some_bind]; exact hm'
  · intro i j _ _ hq
    rcases hq with hq | ⟨hi, hj⟩
    · exact Or.inl (Or.inl hq)
    · by_cases hjy : j = y
      · exact Or.inr ⟨hi, hjy⟩
      · exact Or.inl (Or.inr ⟨hi, by omega⟩)

theorem cellStep_filled {A B : List Nat} (hlA : A.length < INT_MAX)
    (hlB : B.length < INT_MAX) {x y : Nat} {m : Matrix}
    (hx1 : 1 ≤ x) (hx : x ≤ B.length) (hy1 : 1 ≤ y) (hy : y ≤ A.length)
    (h : Filled A B (fun i j => j = 0 ∨ i < x ∨ (i = x ∧ j < y)) m) :
    ∃ m', cellStep (cstr A) (cstr B) x y m = some m' ∧
      Filled A B (fun i j => j = 0 ∨ i < x ∨ (i = x ∧ j < y + 1)) m' := by
  have hup := h.read (x := x - 1) (y := y) (by omega) hy (Or.inr (Or.inl (by omega)))
  have hleft := h.read (x := x) (y := y - 1) hx (by omega) (Or.inr (Or.inr ⟨rfl, by omega⟩))
  have hdiag := h.read (x := x - 1) (y := y - 1) (by omega) (by omega)
    (Or.inr (Or.inl (by omega)))
  have hc1 : (cstr A)[y - 1]? = some A[y - 1] := cstr_getElem? (by omega)
  have hc2 : (cstr B)[x - 1]? = some B[x - 1] := cstr_getElem? (by omega)
  have b1 := prefixDistance_le A B (x - 1) y
  have b2 := prefixDistance_le A B x (y - 1)
  have b3 := prefixDistance_le A B (x - 1) (y - 1)
  have hrec := prefixDistance_succ_succ A B (x - 1) (y - 1) (by omega) (by omega)
  have ex : x - 1 + 1 = x := by omega
  have ey : y - 1 + 1 = y := by omega
  rw [ex, ey] at hrec
  have hcost := substCost_le_one A[y - 1] B[x - 1]
  have hv := cell_value (prefixDistance A B (x - 1) y) (prefixDistance A B x (y - 1))
    (prefixDistance A B (x - 1) (y - 1)) (if A[y - 1] = B[x - 1] then 0 else 1)
    (by omega) (by omega) (by omega) hcost
  obtain ⟨m', hm', hF⟩ := h.write (x := x) (y := y) hx hy (hv.trans hrec.symm)
  refine ⟨m', ?_, hF.mono ?_⟩
  · simp only [cellStep, hup, hleft, hdiag, hc1, hc2, Option.some_bind]; exact hm'
  · intro i j _ _ hq
    rcases hq with hq | hq | ⟨hi, hj⟩
    · exact Or.inl (Or.inl hq)
    · exact Or.inl (Or.inr (Or.inl hq))
    · by_cases hjy : j = y
      · exact Or.inr ⟨hi, hjy⟩
      · exact Or.inl (Or.inr (Or.inr ⟨hi, by omega⟩))

theorem rowLoop_filled {A B : List Nat} (hlA : A.length < INT_MAX)
    (hlB : B.length < INT_MAX) {x : Nat} {m : Matrix} (hx1 : 1 ≤ x) (hx : x ≤ B.length)
    (h : Filled A B (fun i j => j = 0 ∨ i < x) m) :
    ∃ m', forLoop (cellStep (cstr A) (cstr B) x) 1 A.length m = some m' ∧
      Filled A B (fun i j => j = 0 ∨ i < x + 1) m' := by
  obtain ⟨m', hm', hF⟩ := forLoop_inv
    (fun y t => Filled A B (fun i j => j = 0 ∨ i < x ∨ (i = x ∧ j < y)) t)
    (cellStep (cstr A) (cstr B) x) A.length 1 m
    (h.mono (by
      intro i j _ _ hq
      rcases hq with hq | hq | hq
      · exact Or.inl hq
      · exact Or.inr hq
      · exact Or.inl (by omega)))
    (fun y t hy1 hy ht => cellStep_filled hlA hlB hx1 hx hy1 (by omega) ht)
  refine ⟨m', hm', hF.mono ?_⟩
  intro i j _ hj hq
  rcases hq with hq | hq
  · exact Or.inl hq
  · by_cases hi : i = x
    · exact Or.inr (Or.inr ⟨hi, by omega⟩)
    · exact Or.inr (Or.inl (by omega))

/-- The three loops fill every cell of the matrix with the distance of the prefixes. -/
theorem levenshteinMatrix_cstr {A B : List Nat} (hA : NoNul A) (hB : NoNul B)
    (hlA : A.length < INT_MAX) (hlB : B.length < INT_MAX) :
    ∃ m, levenshteinMatrix (cstr A) (cstr B) = some (m, A.length, B.length) ∧
      Filled A B (fun _ _ => True) m := by
  have hI : INT_MAX < UINT_MOD := by decide
  have eA : A.length % UINT_MOD = A.length := Nat.mod_eq_of_lt (by omega)
  have eB : B.length % UINT_MOD = B.length := Nat.mod_eq_of_lt (by omega)
  have uA : uadd A.length 1 = A.length + 1 := uadd_of_lt (by omega)
  have uB : uadd B.length 1 = B.length + 1 := uadd_of_lt (by omega)
  -- `matrix[0][0] = 0`
  have h0 : ∃ m0, (Matrix.alloc (B.length + 1) (A.length + 1)).write 0 0 0 = some m0 ∧
      Filled A B (fun i j => j = 0 ∧ i < 1) m0 := by
    refine ⟨{ rows := B.length + 1, cols := A.length + 1,
              cell := fun i j => if i = 0 ∧ j = 0 then some 0 else none },
      by simp [Matrix.write, Matrix.alloc], rfl, rfl, ?_⟩
    intro i j _ _ hq
    have hi : i = 0 := by omega
    simp [hq.1, hi, prefixDistance, editDistance_nil_left]
  obtain ⟨m0, hm0, hF0⟩ := h0
  -- first column
  obtain ⟨m1, hm1, hF1⟩ := forLoop_inv
    (fun x t => Filled A B (fun i j => j = 0 ∧ i < x) t) firstColumnStep B.length 1 m0 hF0
    (fun x t hx1 hx ht => firstColumnStep_filled hlB hx1 (by omega) ht)
  -- first row
  obtain ⟨m2, hm2, hF2⟩ := forLoop_inv
    (fun y t => Filled A B (fun i j => j = 0 ∨ (i = 0 ∧ j < y)) t) firstRowStep A.length 1 m1
    (hF1.mono (by
      intro i j hi _ hq
      rcases hq with hq | hq
      · exact ⟨hq, by omega⟩
      · exact ⟨by omega, by omega⟩))
    (fun y t hy1 hy ht => firstRowStep_filled hlA hy1 (by omega) ht)
  -- the remaining cells, row by row
  obtain ⟨m3, hm3, hF3⟩ := forLoop_inv
    (fun x t => Filled A B (fun i j => j = 0 ∨ i < x) t)
    (fun x => forLoop (cellStep (cstr A) (cstr B) x) 1 A.length) B.length 1 m2
    (hF2.mono (by
      intro i j _ hj hq
      rcases hq with hq | hq
      · exact Or.inl hq
      · exact Or.inr ⟨by omega, by omega⟩))
    (fun x t hx1 hx ht => rowLoop_filled hlA hlB hx1 (by omega) ht)
  refine ⟨m3, ?_, hF3.mono (fun i j hi _ _ => Or.inr (by omega))⟩
  simp only [levenshteinMatrix, wcslen_cstr hA, wcslen_cstr hB, Option.some_bind, eA, eB, uA,
    uB, Nat.succ_ne_zero, or_self, if_false, hm0, hm1, hm2, hm3]

/-- On wide strings whose lengths fit in an `int`, `levenshtein` returns the reference edit
distance of the two code-point sequences. -/
theorem levenshtein_cstr {A B : List Nat} (hA : NoNul A) (hB : NoNul B)
    (hlA : A.length < INT_MAX) (hlB : B.length < INT_MAX) :
    levenshtein (cstr A) (cstr B) = some (editDistance A B : Int) := by
  obtain ⟨m, hm, hF⟩ := levenshteinMatrix_cstr hA hB hlA hlB
  have hr := hF.read (x := B.length) (y := A.length) (Nat.le_refl _) (Nat.le_refl _) trivial
  have hb := editDistance_le_max A B
  rw [prefixDistance_length] at hr
  simp only [levenshtein, hm, Option.some_bind, hr, Option.map_some']
  rw [toInt_of_le (by omega)]


/-! ## `hamming` -/

theorem mismatchCount_succ (n : Nat) (A B : List Nat) :
    mismatchCount (n + 1) A B = mismatchCount n A B + if A[n]? ≠ B[n]? then 1 else 0 := by
  unfold mismatchCount
  rw [List.range_succ, List.filter_append, List.length_append]
  by_cases h : A[n]? = B[n]?
  · simp [h]
  · simp [h]

theorem mismatchCount_le (n : Nat) (A B : List Nat) : mismatchCount n A B ≤ n := by
  unfold mismatchCount
  have h := List.length_filter_le (fun i => decide (A[i]? ≠ B[i]?)) (List.range n)
  simpa using h

theorem mismatchCount_congr {n : Nat} {A B A' B' : List Nat}
    (hA : ∀ i, i < n → A[i]? = A'[i]?) (hB : ∀ i, i < n → B[i]? = B'[i]?) :
    mismatchCount n A B = mismatchCount n A' B' := by
  unfold mismatchCount
  congr 1
  apply List.filter_congr
  intro i hi
  rw [List.mem_range] at hi
  rw [hA i hi, hB i hi]

theorem mismatchCount_self (n : Nat) (A : List Nat) : mismatchCount n A A = 0 := by
  unfold mismatchCount
  simp

theorem cstr_getElem?_eq {A : List Nat} {i : Nat} (h : i < A.length) :
    (cstr A)[i]? = A[i]? := by
  unfold cstr
  rw [List.getElem?_append_left h]

/-- The loop of `hamming`, started at index `i` with the mismatches below `i` counted,
stops at the terminator of `str1` with all mismatches counted, provided `str2` is at
least as long as the sequence in `str1`. -/
theorem hammingLoop_cstr {A : List Nat} (s2 : List Nat) (hA : NoNul A)
    (hl : A.length ≤ INT_MAX) (hs2 : A.length ≤ s2.length) :
    ∀ (k fuel i : Nat), i + k = A.length → k < fuel →
      hammingLoop (cstr A) s2 fuel i (mismatchCount i (cstr A) s2) =
        some ((mismatchCount A.length (cstr A) s2 : Nat) : Int)
  | 0, fuel + 1, i, hik, _ => by
    have hi : i = A.length := by omega
    subst hi
    simp [hammingLoop, cstr_getElem?_length]
  | k + 1, fuel + 1, i, hik, hf => by
    have hi : i < A.length := by omega
    have h1 : (cstr A)[i]? = some A[i] := cstr_getElem? hi
    have h2 : s2[i]? = some s2[i] := List.getElem?_eq_getElem (by omega)
    have hne : A[i] ≠ 0 := hA _ (List.getElem_mem hi)
    have hsucc := mismatchCount_succ i (cstr A) s2
    rw [h1, h2] at hsucc
    have hle := mismatchCount_le (i + 1) (cstr A) s2
    have ih := hammingLoop_cstr s2 hA hl hs2 k fuel (i + 1) (by omega) (by omega)
    have hcount : (if A[i] ≠ s2[i] then mismatchCount i (cstr A) s2 + 1
        else mismatchCount i (cstr A) s2) = mismatchCount (i + 1) (cstr A) s2 := by
      rw [hsucc]
      by_cases hc : A[i] = s2[i]
      · simp [hc]
      · simp [hc]
    have hguard : ¬ (INT_MAX < mismatchCount (i + 1) (cstr A) s2 ∨ INT_MAX < i + 1) := by
      omega
    simp only [hammingLoop, h1, h2, Option.some_bind, hne, ne_eq, not_false_eq_true, if_true]
    simp only [ne_eq] at hcount
    rw [hcount, if_neg hguard]
    exact ih

/-- When `seq2` is at least as long as `seq1`, `hamming` returns the number of
mismatches among the first `len(seq1)` positions. -/
theorem hamming_cstr {A B : List Nat} (hA : NoNul A) (hl : A.length ≤ INT_MAX)
    (hAB : A.length ≤ B.length) :
    hamming (cstr A) (cstr B) = some ((mismatchCount A.length A B : Nat) : Int) := by
  have h := hammingLoop_cstr (cstr B) hA hl (by simp [cstr]; omega) A.length
    ((cstr A).length + 1) 0 (by omega) (by simp [cstr]; omega)
  have e0 : mismatchCount 0 (cstr A) (cstr B) = 0 := rfl
  rw [e0] at h
  have e : mismatchCount A.length (cstr A) (cstr B) = mismatchCount A.length A B :=
    mismatchCount_congr (fun i hi => cstr_getElem?_eq hi)
      (fun i hi => cstr_getElem?_eq (by omega))
  rw [e] at h
  exact h


/-! ## The claims of the specification -/

/-- C1: for code-point sequences without embedded terminator whose lengths fit in an
`int`, `levenshtein(seq1, seq2)` returns the standard recursive edit distance of the two
sequences, which is the least number of single code-point insertions, deletions and
substitutions that transform `seq1` into `seq2`. -/
theorem levenshtein_eq_editDistance (A B : List Nat) (hA : NoNul A) (hB : NoNul B)
    (hlA : A.length < INT_MAX) (hlB : B.length < INT_MAX) :
    levenshtein (cstr A) (cstr B) = some (editDistance A B : Int) ∧
      Edits A B (editDistance A B) ∧ ∀ n, Edits A B n → editDistance A B ≤ n :=
  ⟨levenshtein_cstr hA hB hlA hlB, edits_editDistance A B,
    fun _ h => editDistance_le_of_edits h⟩

/-- C1, at the sample of the specification: `levenshtein("kitten", "sitting") = 3`. -/
theorem levenshtein_eq_editDistance_witness :
    NoNul kitten ∧ NoNul sitting ∧ kitten.length < INT_MAX ∧ sitting.length < INT_MAX ∧
      levenshtein (cstr kitten) (cstr sitting) = some 3 := by
  refine ⟨by decide, by decide, by decide, by decide, ?_⟩
  have h := (levenshtein_eq_editDistance kitten sitting (by decide) (by decide) (by decide)
    (by decide)).1
  rw [h]
  decide

/-- C2: triangle inequality, `levenshtein(A, C) ≤ levenshtein(A, B) + levenshtein(B, C)`:
the three calls return, and the returned values satisfy the inequality. -/
theorem levenshtein_triangle (A B C : List Nat) (hA : NoNul A) (hB : NoNul B)
    (hC : NoNul C) (hlA : A.length < INT_MAX) (hlB : B.length < INT_MAX)
    (hlC : C.length < INT_MAX) :
    ∃ ac ab bc : Int, levenshtein (cstr A) (cstr C) = some ac ∧
      levenshtein (cstr A) (cstr B) = some ab ∧ levenshtein (cstr B) (cstr C) = some bc ∧
      ac ≤ ab + bc := by
  refine ⟨_, _, _, levenshtein_cstr hA hC hlA hlC, levenshtein_cstr hA hB hlA hlB,
    levenshtein_cstr hB hC hlB hlC, ?_⟩
  exact_mod_cast editDistance_triangle A B C

/-- C2, at `A = "kitten"`, `B = "abc"`, `C = "sitting"`. -/
theorem levenshtein_triangle_witness :
    ∃ ac ab bc : Int, levenshtein (cstr kitten) (cstr sitting) = some ac ∧
      levenshtein (cstr kitten) (cstr abc) = some ab ∧
      levenshtein (cstr abc) (cstr sitting) = some bc ∧ ac ≤ ab + bc :=
  levenshtein_triangle kitten abc sitting (by decide) (by decide) (by decide) (by decide)
    (by decide) (by decide)

/-- C3: symmetry, `levenshtein(A, B) = levenshtein(B, A)`: both calls return the same
value, although the matrix has `seq2` on the rows and `seq1` on the columns. -/
theorem levenshtein_symm (A B : List Nat) (hA : NoNul A) (hB : NoNul B)
    (hlA : A.length < INT_MAX) (hlB : B.length < INT_MAX) :
    ∃ d : Int, levenshtein (cstr A) (cstr B) = some d ∧
      levenshtein (cstr B) (cstr A) = some d := by
  refine ⟨_, levenshtein_cstr hA hB hlA hlB, ?_⟩
  rw [levenshtein_cstr hB hA hlB hlA, editDistance_comm B A]

/-- C3, at `A = "kitten"`, `B = "sitting"`. -/
theorem levenshtein_symm_witness :
    ∃ d : Int, levenshtein (cstr kitten) (cstr sitting) = some d ∧
      levenshtein (cstr sitting) (cstr kitten) = some d :=
  levenshtein_symm kitten sitting (by decide) (by decide) (by decide) (by decide)

/-- C4: upper bound, `levenshtein(A, B) ≤ max(len(A), len(B))`: the call returns a value
that is at most the larger length. -/
theorem levenshtein_le_max (A B : List Nat) (hA : NoNul A) (hB : NoNul B)
    (hlA : A.length < INT_MAX) (hlB : B.length < INT_MAX) :
    ∃ d : Int, levenshtein (cstr A) (cstr B) = some d ∧
      d ≤ Max.max (A.length : Int) (B.length : Int) := by
  refine ⟨_, levenshtein_cstr hA hB hlA hlB, ?_⟩
  have h := editDistance_le_max A B
  omega

/-- C4, at `A = "kitten"`, `B = "sitting"`. -/
theorem levenshtein_le_max_witness :
    ∃ d : Int, levenshtein (cstr kitten) (cstr sitting) = some d ∧
      d ≤ Max.max (kitten.length : Int) (sitting.length : Int) :=
  levenshtein_le_max kitten sitting (by decide) (by decide) (by decide) (by decide)

/-- C5: lower bound, `levenshtein(A, B) ≥ |len(A) - len(B)|`: the call returns a
non-negative value that is at least the difference of the lengths. -/
theorem levenshtein_ge_length_diff (A B : List Nat) (hA : NoNul A) (hB : NoNul B)
    (hlA : A.length < INT_MAX) (hlB : B.length < INT_MAX) :
    ∃ d : Int, levenshtein (cstr A) (cstr B) = some d ∧ 0 ≤ d ∧
      |(A.length : Int) - (B.length : Int)| ≤ d := by
  refine ⟨_, levenshtein_cstr hA hB hlA hlB, by omega, ?_⟩
  have h1 := length_le_editDistance_add A B
  have h2 := length_le_editDistance_add B A
  rw [editDistance_comm B A] at h2
  rw [abs_le]
  constructor <;> omega

/-- C5, at `A = "kitten"`, `B = "sitting"`. -/
theorem levenshtein_ge_length_diff_witness :
    ∃ d : Int, levenshtein (cstr kitten) (cstr sitting) = some d ∧ 0 ≤ d ∧
      |(kitten.length : Int) - (sitting.length : Int)| ≤ d :=
  levenshtein_ge_length_diff kitten sitting (by decide) (by decide) (by decide) (by decide)

/-- C6: `levenshtein(A, A) = 0` for every code-point sequence `A`. -/
theorem levenshtein_self (A : List Nat) (hA : NoNul A) (hlA : A.length < INT_MAX) :
    levenshtein (cstr A) (cstr A) = some 0 := by
  rw [levenshtein_cstr hA hA hlA hlA, editDistance_self]
  rfl

/-- C6, at the sample of the specification: `levenshtein("abc", "abc") = 0`. -/
theorem levenshtein_self_witness :
    NoNul abc ∧ abc.length < INT_MAX ∧ levenshtein (cstr abc) (cstr abc) = some 0 :=
  ⟨by decide, by decide, levenshtein_self abc (by decide) (by decide)⟩

/-- C7: `levenshtein("", A) = len(A)` and `levenshtein(A, "") = len(A)`, and
`levenshtein("", "") = 0`. -/
theorem levenshtein_empty (A : List Nat) (hA : NoNul A) (hlA : A.length < INT_MAX) :
    levenshtein (cstr []) (cstr A) = some (A.length : Int) ∧
      levenshtein (cstr A) (cstr []) = some (A.length : Int) ∧
      levenshtein (cstr []) (cstr []) = some 0 := by
  have hnil : NoNul [] := by decide
  have hlnil : ([] : List Nat).length < INT_MAX := by decide
  refine ⟨?_, ?_, ?_⟩
  · rw [levenshtein_cstr hnil hA hlnil hlA, editDistance_nil_left]
  · rw [levenshtein_cstr hA hnil hlA hlnil, editDistance_nil_right]
  · rw [levenshtein_cstr hnil hnil hlnil hlnil]; rfl

/-- C7, at `A = "sitting"`. -/
theorem levenshtein_empty_witness :
    levenshtein (cstr []) (cstr sitting) = some 7 ∧
      levenshtein (cstr sitting) (cstr []) = some 7 ∧
      levenshtein (cstr []) (cstr []) = some 0 :=
  levenshtein_empty sitting (by decide) (by decide)

/-- C8: for sequences of equal length, `hamming(A, B)` returns exactly the number of
indices `i < len(A)` with `A[i] ≠ B[i]`. -/
theorem hamming_eq_mismatchCount (A B : List Nat) (hA : NoNul A)
    (hl : A.length ≤ INT_MAX) (hAB : A.length = B.length) :
    hamming (cstr A) (cstr B) = some ((mismatchCount A.length A B : Nat) : Int) :=
  hamming_cstr hA hl (Nat.le_of_eq hAB)

/-- C8, at the sample of the specification: `hamming("karolin", "kathrin") = 3`. -/
theorem hamming_eq_mismatchCount_witness :
    NoNul karolin ∧ karolin.length ≤ INT_MAX ∧ karolin.length = kathrin.length ∧
      hamming (cstr karolin) (cstr kathrin) = some 3 := by
  refine ⟨by decide, by decide, by decide, ?_⟩
  have h := hamming_eq_mismatchCount karolin kathrin (by decide) (by decide) (by decide)
  rw [h]
  decide

/-- C9: `hamming(A, A) = 0` for every code-point sequence `A`. -/
theorem hamming_self (A : List Nat) (hA : NoNul A) (hl : A.length ≤ INT_MAX) :
    hamming (cstr A) (cstr A) = some 0 := by
  rw [hamming_cstr hA hl (Nat.le_refl _), mismatchCount_self]
  rfl

/-- C9, at `A = "karolin"`. -/
theorem hamming_self_witness :
    NoNul karolin ∧ karolin.length ≤ INT_MAX ∧ hamming (cstr karolin) (cstr karolin) = some 0 :=
  ⟨by decide, by decide, hamming_self karolin (by decide) (by decide)⟩

/-- C10, as stated, fails: `"a"` and `"ab"` differ in length, and `hamming("a", "ab")`
returns the count `0` instead of failing. -/
theorem hamming_length_mismatch_returns :
    [97].length ≠ [97, 98].length ∧ hamming (cstr [97]) (cstr [97, 98]) = some 0 := by
  decide

/-- C10, amended: `hamming` has no length check; when `seq1` is shorter than `seq2` it
returns the number of indices `i < len(seq1)` with `seq1[i] ≠ seq2[i]`, reading neither
buffer past its end. -/
theorem hamming_of_shorter (A B : List Nat) (hA : NoNul A) (hl : A.length ≤ INT_MAX)
    (hAB : A.length < B.length) :
    hamming (cstr A) (cstr B) = some ((mismatchCount A.length A B : Nat) : Int) :=
  hamming_cstr hA hl (Nat.le_of_lt hAB)

/-- C10, amended, at `seq1 = "abc"`, `seq2 = "kitten"`: three mismatches. -/
theorem hamming_of_shorter_witness :
    NoNul abc ∧ abc.length ≤ INT_MAX ∧ abc.length < kitten.length ∧
      hamming (cstr abc) (cstr kitten) = some 3 := by
  refine ⟨by decide, by decide, by decide, ?_⟩
  have h := hamming_of_shorter abc kitten (by decide) (by decide) (by decide)
  rw [h]
  decide


/-! ## Rounding to a binary format -/

theorem roundHalfEven_intCast (z : Int) : roundHalfEven (z : ℚ) = z := by
  simp [roundHalfEven]

theorem roundHalfEven_sub_le (x : ℚ) : |((roundHalfEven x : Int) : ℚ) - x| ≤ 1 / 2 := by
  have h1 := Int.floor_le x
  have h2 := Int.lt_floor_add_one x
  unfold roundHalfEven
  rw [abs_le]
  split_ifs with a b c
  · constructor <;> linarith
  · push_cast; constructor <;> linarith
  · constructor <;> linarith
  · push_cast; constructor <;> linarith

theorem roundHalfEven_eq_of_lt (x : ℚ) (M : Int) (h : |x - (M : ℚ)| < 1 / 2) :
    roundHalfEven x = M := by
  have h0 := roundHalfEven_sub_le x
  rw [abs_lt] at h
  rw [abs_le] at h0
  have h3 : |((roundHalfEven x : Int) : ℚ) - (M : ℚ)| < 1 := by
    rw [abs_lt]; constructor <;> linarith
  have h4 : |roundHalfEven x - M| < 1 := by exact_mod_cast h3
  rw [abs_lt] at h4
  omega

theorem le_roundHalfEven (x : ℚ) (N : Int) (h : (N : ℚ) ≤ x) : N ≤ roundHalfEven x := by
  have hf : N ≤ ⌊x⌋ := Int.le_floor.mpr h
  unfold roundHalfEven
  split_ifs <;> omega

theorem roundHalfEven_le (x : ℚ) (N : Int) (h : x ≤ (N : ℚ)) : roundHalfEven x ≤ N := by
  by_cases hx : x = (N : ℚ)
  · rw [hx, roundHalfEven_intCast]
  · have hlt : x < (N : ℚ) := lt_of_le_of_ne h hx
    have hf : ⌊x⌋ < N := Int.floor_lt.mpr hlt
    unfold roundHalfEven
    split_ifs <;> omega

theorem two_zpow_pos (k : Int) : (0 : ℚ) < (2 : ℚ) ^ k := zpow_pos (by norm_num) k

theorem log_two_bounds (x : ℚ) (hx : x ≠ 0) :
    (2 : ℚ) ^ Int.log 2 |x| ≤ |x| ∧ |x| < (2 : ℚ) ^ (Int.log 2 |x| + 1) := by
  have h1 := Int.zpow_log_le_self (b := 2) (r := |x|) (by norm_num) (abs_pos.mpr hx)
  have h2 := Int.lt_zpow_succ_log_self (b := 2) (by norm_num) |x|
  simp only [Nat.cast_ofNat] at h1 h2
  exact ⟨h1, h2⟩

theorem log_two_eq (x : ℚ) (e : Int) (h1 : (2 : ℚ) ^ e ≤ |x|) (h2 : |x| < (2 : ℚ) ^ (e + 1)) :
    Int.log 2 |x| = e := by
  have hpos : 0 < |x| := lt_of_lt_of_le (two_zpow_pos e) h1
  have a : e ≤ Int.log 2 |x| :=
    (Int.zpow_le_iff_le_log (by norm_num) hpos).mp (by simpa using h1)
  have b : Int.log 2 |x| < e + 1 :=
    (Int.lt_zpow_iff_log_lt (by norm_num) hpos).mp (by simpa using h2)
  omega

/-- The rounded value, when it is below the overflow threshold, is the result. -/
theorem roundBinary_eq_finite (prec : Nat) (emin emax : Int) (x y : ℚ)
    (hy : y = (roundHalfEven (x / (2 : ℚ) ^ ulpExponent prec emin x) : ℚ) *
      (2 : ℚ) ^ ulpExponent prec emin x)
    (habs : |y| < (2 : ℚ) ^ (emax + 1)) :
    roundBinary prec emin emax x = CFloat.finite y := by
  rw [abs_lt] at habs
  unfold roundBinary
  simp only [← hy]
  rw [if_neg (by linarith), if_neg (by linarith)]

/-- A multiple of the unit in the last place is rounded to itself. -/
theorem roundBinary_of_multiple (prec : Nat) (emin emax : Int) (x : ℚ) (z : Int)
    (hz : x = (z : ℚ) * (2 : ℚ) ^ ulpExponent prec emin x)
    (hmax : |x| < (2 : ℚ) ^ (emax + 1)) :
    roundBinary prec emin emax x = CFloat.finite x := by
  apply roundBinary_eq_finite prec emin emax x x _ hmax
  have hu := two_zpow_pos (ulpExponent prec emin x)
  have hq : x / (2 : ℚ) ^ ulpExponent prec emin x = (z : ℚ) := by
    rw [div_eq_iff (ne_of_gt hu)]; exact hz
  rw [hq, roundHalfEven_intCast]
  exact hz

/-- The exponent of the unit in the last place of `m * 2 ^ k`, for a significand `m` of
at most `prec` bits, is at most `k`. -/
theorem ulpExponent_le (prec : Nat) (emin : Int) (m k : Int) (hm0 : m ≠ 0)
    (hm : |m| < 2 ^ prec) (hk : emin - ((prec : Int) - 1) ≤ k) :
    ulpExponent prec emin ((m : ℚ) * (2 : ℚ) ^ k) ≤ k := by
  have hk2 := two_zpow_pos k
  have hx0 : (m : ℚ) * (2 : ℚ) ^ k ≠ 0 :=
    mul_ne_zero (by exact_mod_cast hm0) (ne_of_gt hk2)
  obtain ⟨h1, -⟩ := log_two_bounds _ hx0
  have hmq : |(m : ℚ)| < (2 : ℚ) ^ (prec : Int) := by
    rw [zpow_natCast]; exact_mod_cast hm
  have h3 : |(m : ℚ) * (2 : ℚ) ^ k| < (2 : ℚ) ^ ((prec : Int) + k) := by
    rw [abs_mul, abs_of_pos hk2, zpow_add₀ (by norm_num)]
    exact mul_lt_mul_of_pos_right hmq hk2
  have h4 : Int.log 2 |(m : ℚ) * (2 : ℚ) ^ k| < (prec : Int) + k :=
    (zpow_lt_zpow_iff_right₀ (by norm_num : (1 : ℚ) < 2)).mp (lt_of_le_of_lt h1 h3)
  unfold ulpExponent
  omega

/-- Exactness: a value `m * 2 ^ k` with a significand of at most `prec` bits and an
exponent in range is rounded to itself. -/
theorem roundBinary_of_representable (prec : Nat) (emin emax : Int) (m k : Int)
    (hm : |m| < 2 ^ prec) (hk : emin - ((prec : Int) - 1) ≤ k)
    (hmax : |(m : ℚ) * (2 : ℚ) ^ k| < (2 : ℚ) ^ (emax + 1)) :
    roundBinary prec emin emax ((m : ℚ) * (2 : ℚ) ^ k) = CFloat.finite ((m : ℚ) * (2 : ℚ) ^ k) := by
  by_cases hm0 : m = 0
  · subst hm0
    apply roundBinary_of_multiple prec emin emax _ 0 _ hmax
    simp
  · have hj := ulpExponent_le prec emin m k hm0 hm hk
    obtain ⟨n, hn⟩ := Int.eq_ofNat_of_zero_le (sub_nonneg.mpr hj)
    apply roundBinary_of_multiple prec emin emax _ (m * 2 ^ n) _ hmax
    have hk' : k = (n : Int) + ulpExponent prec emin ((m : ℚ) * (2 : ℚ) ^ k) := by omega
    have e2 : (2 : ℚ) ^ k = (2 : ℚ) ^ n * (2 : ℚ) ^ ulpExponent prec emin ((m : ℚ) * (2 : ℚ) ^ k) := by
      conv_lhs => rw [hk']
      rw [zpow_add₀ (by norm_num), zpow_natCast]
    push_cast
    rw [mul_assoc, ← e2]

theorem ulpExponent_of_bounds (p : Nat) (emin : Int) (x : ℚ) (e : Int)
    (h1 : (2 : ℚ) ^ e ≤ |x|) (h2 : |x| < (2 : ℚ) ^ (e + 1)) (hemin : emin ≤ e) :
    ulpExponent (p + 1) emin x = e - (p : Int) := by
  unfold ulpExponent
  rw [log_two_eq x e h1 h2]
  push_cast
  omega

/-- Rounding of a positive value in the normal range: the result is finite, its
significand has exactly `p + 1` bits (or the value is the next power of two), and it is
within half a unit in the last place of `x`. -/
theorem roundBinary_normal_pos (p : Nat) (emin emax : Int) (x : ℚ) (e : Int)
    (h1 : (2 : ℚ) ^ e ≤ x) (h2 : x < (2 : ℚ) ^ (e + 1)) (hemin : emin ≤ e)
    (hemax : e < emax) :
    ∃ M : Int, roundBinary (p + 1) emin emax x = CFloat.finite ((M : ℚ) * (2 : ℚ) ^ (e - (p : Int))) ∧
      |(M : ℚ) * (2 : ℚ) ^ (e - (p : Int)) - x| ≤ (2 : ℚ) ^ (e - (p : Int)) / 2 ∧
      2 ^ p ≤ M ∧ M ≤ 2 ^ (p + 1) := by
  have hx : 0 < x := lt_of_lt_of_le (two_zpow_pos e) h1
  have habs : |x| = x := abs_of_pos hx
  have hj := ulpExponent_of_bounds p emin x e (by rw [habs]; exact h1) (by rw [habs]; exact h2)
    hemin
  have hu := two_zpow_pos (e - (p : Int))
  have hune : (2 : ℚ) ^ (e - (p : Int)) ≠ 0 := ne_of_gt hu
  have he : (2 : ℚ) ^ e = (2 : ℚ) ^ p * (2 : ℚ) ^ (e - (p : Int)) := by
    rw [← zpow_natCast, ← zpow_add₀ (by norm_num)]; congr 1; omega
  have he1 : (2 : ℚ) ^ (e + 1) = (2 : ℚ) ^ (p + 1) * (2 : ℚ) ^ (e - (p : Int)) := by
    rw [← zpow_natCast, ← zpow_add₀ (by norm_num)]; congr 1; push_cast; omega
  have ht1 : (((2 : Int) ^ p : Int) : ℚ) ≤ x / (2 : ℚ) ^ (e - (p : Int)) := by
    rw [le_div_iff₀ hu]; push_cast; rw [← he]; exact h1
  have ht2 : x / (2 : ℚ) ^ (e - (p : Int)) ≤ (((2 : Int) ^ (p + 1) : Int) : ℚ) := by
    rw [div_le_iff₀ hu]; push_cast; rw [← he1]; exact le_of_lt h2
  have hM1 := le_roundHalfEven _ _ ht1
  have hM2 := roundHalfEven_le _ _ ht2
  have herr := roundHalfEven_sub_le (x / (2 : ℚ) ^ (e - (p : Int)))
  have hdist : |(roundHalfEven (x / (2 : ℚ) ^ (e - (p : Int))) : ℚ) * (2 : ℚ) ^ (e - (p : Int)) - x|
      ≤ (2 : ℚ) ^ (e - (p : Int)) / 2 := by
    have e3 : (roundHalfEven (x / (2 : ℚ) ^ (e - (p : Int))) : ℚ) * (2 : ℚ) ^ (e - (p : Int)) - x
        = ((roundHalfEven (x / (2 : ℚ) ^ (e - (p : Int))) : ℚ) - x / (2 : ℚ) ^ (e - (p : Int)))
          * (2 : ℚ) ^ (e - (p : Int)) := by
      field_simp
    rw [e3, abs_mul, abs_of_pos hu]
    calc _ ≤ 1 / 2 * (2 : ℚ) ^ (e - (p : Int)) := mul_le_mul_of_nonneg_right herr (le_of_lt hu)
      _ = (2 : ℚ) ^ (e - (p : Int)) / 2 := by ring
  refine ⟨roundHalfEven (x / (2 : ℚ) ^ (e - (p : Int))), ?_, hdist, hM1, hM2⟩
  apply roundBinary_eq_finite
  · rw [hj]
  · have hMq : ((roundHalfEven (x / (2 : ℚ) ^ (e - (p : Int))) : Int) : ℚ) ≤ (2 : ℚ) ^ (p + 1) := by
      exact_mod_cast hM2
    have hMq0 : (0 : ℚ) ≤ ((roundHalfEven (x / (2 : ℚ) ^ (e - (p : Int))) : Int) : ℚ) := by
      have : (0 : Int) ≤ roundHalfEven (x / (2 : ℚ) ^ (e - (p : Int))) :=
        le_trans (by positivity) hM1
      exact_mod_cast this
    rw [abs_of_nonneg (mul_nonneg hMq0 (le_of_lt hu))]
    calc _ ≤ (2 : ℚ) ^ (p + 1) * (2 : ℚ) ^ (e - (p : Int)) :=
          mul_le_mul_of_nonneg_right hMq (le_of_lt hu)
      _ = (2 : ℚ) ^ (e + 1) := he1.symm
      _ < (2 : ℚ) ^ (emax + 1) := zpow_lt_zpow_right₀ (by norm_num) (by omega)

/-- Evaluation of a rounding from a certificate: the exponent `e` of `x` and an integer
`M` within less than one half of the scaled value. -/
theorem roundBinary_eq_of_near (p : Nat) (emin emax : Int) (x : ℚ) (e M : Int)
    (h1 : (2 : ℚ) ^ e ≤ |x|) (h2 : |x| < (2 : ℚ) ^ (e + 1)) (hemin : emin ≤ e)
    (hnear : |x / (2 : ℚ) ^ (e - (p : Int)) - (M : ℚ)| < 1 / 2)
    (hmax : |(M : ℚ) * (2 : ℚ) ^ (e - (p : Int))| < (2 : ℚ) ^ (emax + 1)) :
    roundBinary (p + 1) emin emax x = CFloat.finite ((M : ℚ) * (2 : ℚ) ^ (e - (p : Int))) := by
  have hj := ulpExponent_of_bounds p emin x e h1 h2 hemin
  apply roundBinary_eq_finite _ _ _ _ _ _ hmax
  rw [hj, roundHalfEven_eq_of_lt _ M hnear]

/-- A positive value at or above the least normal magnitude is rounded to a positive
value or to `+inf`. -/
theorem roundBinary_of_pos (p : Nat) (emin emax : Int) (x : ℚ) (hx : 0 < x)
    (hemin : emin ≤ Int.log 2 |x|) :
    roundBinary (p + 1) emin emax x = CFloat.posInf ∨
      ∃ y : ℚ, 0 < y ∧ roundBinary (p + 1) emin emax x = CFloat.finite y := by
  obtain ⟨h1, h2⟩ := log_two_bounds x (ne_of_gt hx)
  have hj := ulpExponent_of_bounds p emin x _ h1 h2 hemin
  have hu := two_zpow_pos (Int.log 2 |x| - (p : Int))
  have he : (2 : ℚ) ^ Int.log 2 |x| = (2 : ℚ) ^ p * (2 : ℚ) ^ (Int.log 2 |x| - (p : Int)) := by
    rw [← zpow_natCast, ← zpow_add₀ (by norm_num)]; congr 1; omega
  have ht1 : (((2 : Int) ^ p : Int) : ℚ) ≤ x / (2 : ℚ) ^ (Int.log 2 |x| - (p : Int)) := by
    rw [le_div_iff₀ hu]; push_cast; rw [← he]
    exact le_of_le_of_eq h1 (abs_of_pos hx)
  have hM1 := le_roundHalfEven _ _ ht1
  have hMpos : (0 : ℚ) < ((roundHalfEven (x / (2 : ℚ) ^ (Int.log 2 |x| - (p : Int))) : Int) : ℚ) := by
    have : (0 : Int) < roundHalfEven (x / (2 : ℚ) ^ (Int.log 2 |x| - (p : Int))) :=
      lt_of_lt_of_le (by positivity) hM1
    exact_mod_cast this
  have hy := mul_pos hMpos hu
  have hT := two_zpow_pos (emax + 1)
  unfold roundBinary
  simp only [hj]
  split_ifs with a b
  · exact Or.inl rfl
  · exfalso; linarith
  · exact Or.inr ⟨_, hy, rfl⟩

/-- A negative value at or above the least normal magnitude is rounded to a negative
value or to `-inf`. -/
theorem roundBinary_of_neg (p : Nat) (emin emax : Int) (x : ℚ) (hx : x < 0)
    (hemin : emin ≤ Int.log 2 |x|) :
    roundBinary (p + 1) emin emax x = CFloat.negInf ∨
      ∃ y : ℚ, y < 0 ∧ roundBinary (p + 1) emin emax x = CFloat.finite y := by
  obtain ⟨h1, h2⟩ := log_two_bounds x (ne_of_lt hx)
  have hj := ulpExponent_of_bounds p emin x _ h1 h2 hemin
  have hu := two_zpow_pos (Int.log 2 |x| - (p : Int))
  have he : (2 : ℚ) ^ Int.log 2 |x| = (2 : ℚ) ^ p * (2 : ℚ) ^ (Int.log 2 |x| - (p : Int)) := by
    rw [← zpow_natCast, ← zpow_add₀ (by norm_num)]; congr 1; omega
  have ht1 : x / (2 : ℚ) ^ (Int.log 2 |x| - (p : Int)) ≤ ((-(2 : Int) ^ p : Int) : ℚ) := by
    rw [div_le_iff₀ hu]; push_cast
    have h1' : (2 : ℚ) ^ Int.log 2 |x| ≤ -x := le_of_le_of_eq h1 (abs_of_neg hx)
    have : -((2 : ℚ) ^ p * (2 : ℚ) ^ (Int.log 2 |x| - (p : Int))) =
        -(2 : ℚ) ^ p * (2 : ℚ) ^ (Int.log 2 |x| - (p : Int)) := by ring
    rw [← this, ← he]; linarith
  have hM1 := roundHalfEven_le _ _ ht1
  have hMneg : ((roundHalfEven (x / (2 : ℚ) ^ (Int.log 2 |x| - (p : Int))) : Int) : ℚ) < 0 := by
    have h0 : (0 : Int) < 2 ^ p := by positivity
    have : roundHalfEven (x / (2 : ℚ) ^ (Int.log 2 |x| - (p : Int))) < 0 := by omega
    exact_mod_cast this
  have hy := mul_neg_of_neg_of_pos hMneg hu
  have hT := two_zpow_pos (emax + 1)
  unfold roundBinary
  simp only [hj]
  split_ifs with a b
  · exfalso; linarith
  · exact Or.inl rfl
  · exact Or.inr ⟨_, hy, rfl⟩

theorem roundBinary_zero (prec : Nat) (emin emax : Int) :
    roundBinary prec emin emax 0 = CFloat.finite 0 := by
  have h := roundBinary_of_multiple prec emin emax 0 0 (by simp)
    (by rw [abs_zero]; exact two_zpow_pos _)
  exact h

/-! ## Conversions and operations on `float` -/

theorem zero_le_log_of_one_le (x : ℚ) (hx : 1 ≤ |x|) : 0 ≤ Int.log 2 |x| :=
  (Int.zpow_le_iff_le_log (by norm_num) (lt_of_lt_of_le one_pos hx)).mp (by simpa using hx)

theorem CFloat.ofInt_zero : CFloat.ofInt 0 = CFloat.finite 0 := by
  have h := roundBinary_zero 24 (-126) 127
  simpa [CFloat.ofInt, round32] using h

theorem CFloat.ofInt_of_pos (d : Int) (hd : 0 < d) :
    CFloat.ofInt d = CFloat.posInf ∨ ∃ y : ℚ, 0 < y ∧ CFloat.ofInt d = CFloat.finite y := by
  have hq : (0 : ℚ) < (d : ℚ) := by exact_mod_cast hd
  have h1 : (1 : ℚ) ≤ |(d : ℚ)| := by
    rw [abs_of_pos hq]; exact_mod_cast hd
  have h0 := zero_le_log_of_one_le _ h1
  exact roundBinary_of_pos 23 (-126) 127 (d : ℚ) hq (by omega)

theorem CFloat.ofInt_of_neg (d : Int) (hd : d < 0) :
    CFloat.ofInt d = CFloat.negInf ∨ ∃ y : ℚ, y < 0 ∧ CFloat.ofInt d = CFloat.finite y := by
  have hq : (d : ℚ) < 0 := by exact_mod_cast hd
  have h1 : (1 : ℚ) ≤ |(d : ℚ)| := by
    rw [abs_of_neg hq]
    have : (1 : Int) ≤ -d := by omega
    exact_mod_cast this
  have h0 := zero_le_log_of_one_le _ h1
  exact roundBinary_of_neg 23 (-126) 127 (d : ℚ) hq (by omega)

theorem CFloat.ofInt_div_zero (d : Int) :
    CFloat.div (CFloat.ofInt d) (CFloat.ofInt 0) =
      if d = 0 then CFloat.nan else if 0 < d then CFloat.posInf else CFloat.negInf := by
  rw [CFloat.ofInt_zero]
  rcases lt_trichotomy d 0 with hd | hd | hd
  · have h0 : d ≠ 0 := by omega
    have h1 : ¬ 0 < d := by omega
    rw [if_neg h0, if_neg h1]
    rcases CFloat.ofInt_of_neg d hd with h | ⟨y, hy, h⟩
    · rw [h]; simp [CFloat.div]
    · rw [h]
      have hy0 : y ≠ 0 := ne_of_lt hy
      have hy1 : ¬ 0 < y := not_lt.mpr (le_of_lt hy)
      simp [CFloat.div, hy0, hy1]
  · subst hd
    rw [CFloat.ofInt_zero]
    simp [CFloat.div]
  · have h0 : d ≠ 0 := by omega
    rw [if_neg h0, if_pos hd]
    rcases CFloat.ofInt_of_pos d hd with h | ⟨y, hy, h⟩
    · rw [h]; simp [CFloat.div]
    · rw [h]
      have hy0 : y ≠ 0 := ne_of_gt hy
      simp [CFloat.div, hy0, hy]

theorem CFloat.div_zero_not_finite (d : Int) :
    (CFloat.div (CFloat.ofInt d) (CFloat.ofInt 0)).isFinite = false := by
  rw [CFloat.ofInt_div_zero]
  split_ifs <;> rfl

theorem CFloat.mul_not_finite (a b : CFloat) (ha : a.isFinite = false) :
    (CFloat.mul a b).isFinite = false := by
  cases a with
  | finite q => simp [CFloat.isFinite] at ha
  | posInf =>
    cases b with
    | finite r => simp only [CFloat.mul]; split_ifs <;> rfl
    | posInf => rfl
    | negInf => rfl
    | nan => rfl
  | negInf =>
    cases b with
    | finite r => simp only [CFloat.mul]; split_ifs <;> rfl
    | posInf => rfl
    | negInf => rfl
    | nan => rfl
  | nan => cases b <;> rfl

theorem CFloat.finite_sub_not_finite (rnd : ℚ → CFloat) (q : ℚ) (b : CFloat)
    (hb : b.isFinite = false) : (CFloat.subWith rnd (CFloat.finite q) b).isFinite = false := by
  cases b with
  | finite r => simp [CFloat.isFinite] at hb
  | posInf => rfl
  | negInf => rfl
  | nan => rfl

theorem CFloat.mul_not_finite_of_div_zero (h p : Int) :
    (CFloat.mul (CFloat.div (CFloat.ofInt h) (CFloat.ofInt 0))
      (CFloat.div (CFloat.ofInt h) (CFloat.ofInt p))).isFinite = false :=
  CFloat.mul_not_finite _ _ (CFloat.div_zero_not_finite h)

theorem round32_of_isBinary32 (x : ℚ) (h : IsBinary32 x) : round32 x = CFloat.finite x := by
  obtain ⟨m, k, hm, hk, hmax, rfl⟩ := h
  exact roundBinary_of_representable 24 (-126) 127 m k hm hk hmax

theorem round64_of_isBinary64 (x : ℚ) (h : IsBinary64 x) : round64 x = CFloat.finite x := by
  obtain ⟨m, k, hm, hk, hmax, rfl⟩ := h
  exact roundBinary_of_representable 53 (-1022) 1023 m k hm hk hmax

theorem IsBinary32.isBinary64 {x : ℚ} (h : IsBinary32 x) : IsBinary64 x := by
  obtain ⟨m, k, hm, hk, hmax, rfl⟩ := h
  refine ⟨m, k, lt_trans hm (by norm_num), ?_, lt_trans hmax ?_, rfl⟩
  · have : ((53 : Nat) : Int) = 53 := rfl
    have h24 : ((24 : Nat) : Int) = 24 := rfl
    omega
  · exact zpow_lt_zpow_right₀ (by norm_num) (by norm_num)

/-- An integer of magnitude at most `2 ^ 24` is a value of the type `float`. -/
theorem isBinary32_intCast (d : Int) (hd : |d| ≤ 2 ^ 24) : IsBinary32 (d : ℚ) := by
  have hq : |(d : ℚ)| ≤ (2 : ℚ) ^ (24 : Int) := by
    have h1 : |(d : ℚ)| ≤ ((2 ^ 24 : Int) : ℚ) := by exact_mod_cast hd
    have h2 : ((2 ^ 24 : Int) : ℚ) = (2 : ℚ) ^ (24 : Int) := by norm_num
    rw [h2] at h1
    exact h1
  have hlt : |(d : ℚ)| < (2 : ℚ) ^ ((127 : Int) + 1) :=
    lt_of_le_of_lt hq (zpow_lt_zpow_right₀ (by norm_num) (by norm_num))
  by_cases h : |d| < 2 ^ 24
  · exact ⟨d, 0, h, by norm_num, by simpa using hlt, by simp⟩
  · have hd2 : |d| = 2 ^ 24 := by omega
    have e : (d : ℚ) = ((d / 2 : Int) : ℚ) * (2 : ℚ) ^ (1 : Int) := by
      have : d = d / 2 * 2 := by
        rcases abs_cases d with ⟨h1, -⟩ | ⟨h1, -⟩ <;> omega
      conv_lhs => rw [this]
      push_cast; simp
    refine ⟨d / 2, 1, ?_, by norm_num, ?_, e⟩
    · rcases abs_cases d with ⟨h1, -⟩ | ⟨h1, -⟩ <;>
        rcases abs_cases (d / 2) with ⟨h2, -⟩ | ⟨h2, -⟩ <;> omega
    · rw [← e]; exact hlt

theorem CFloat.ofInt_of_abs_le (d : Int) (hd : |d| ≤ 2 ^ 24) :
    CFloat.ofInt d = CFloat.finite (d : ℚ) :=
  round32_of_isBinary32 _ (isBinary32_intCast d hd)

theorem round32_eq_of_near (x : ℚ) (e M : Int)
    (h1 : (2 : ℚ) ^ e ≤ |x|) (h2 : |x| < (2 : ℚ) ^ (e + 1)) (hemin : -126 ≤ e)
    (hnear : |x / (2 : ℚ) ^ (e - 23) - (M : ℚ)| < 1 / 2)
    (hmax : |(M : ℚ) * (2 : ℚ) ^ (e - 23)| < (2 : ℚ) ^ (128 : Int)) :
    round32 x = CFloat.finite ((M : ℚ) * (2 : ℚ) ^ (e - 23)) :=
  roundBinary_eq_of_near 23 (-126) 127 x e M h1 h2 hemin hnear hmax

/-- The quotient of two counts of at most `2 ^ 24` is rounded to a finite value within
the relative error `2 ^ (-24)`. -/
theorem round32_quotient (d n : Int) (hd0 : 0 ≤ d) (hd : d ≤ 2 ^ 24) (hn0 : 0 < n)
    (hn : n ≤ 2 ^ 24) :
    ∃ q : ℚ, round32 ((d : ℚ) / (n : ℚ)) = CFloat.finite q ∧
      |q - (d : ℚ) / (n : ℚ)| ≤ (d : ℚ) / (n : ℚ) / 2 ^ 24 := by
  have hnq : (0 : ℚ) < (n : ℚ) := by exact_mod_cast hn0
  have hnq' : (n : ℚ) ≤ 2 ^ 24 := by exact_mod_cast hn
  have hdq' : (d : ℚ) ≤ 2 ^ 24 := by exact_mod_cast hd
  by_cases hd1 : d = 0
  · subst hd1
    refine ⟨0, ?_, by simp⟩
    have h := roundBinary_zero 24 (-126) 127
    simpa [round32] using h
  · have hdq : (1 : ℚ) ≤ (d : ℚ) := by
      have : (1 : Int) ≤ d := by omega
      exact_mod_cast this
    have hx : (0 : ℚ) < (d : ℚ) / (n : ℚ) := div_pos (by linarith) hnq
    have hlo : (2 : ℚ) ^ (-24 : Int) ≤ (d : ℚ) / (n : ℚ) := by
      rw [le_div_iff₀ hnq]
      have : (2 : ℚ) ^ (-24 : Int) * (n : ℚ) ≤ 1 := by
        have h24 : (2 : ℚ) ^ (-24 : Int) = 1 / 2 ^ 24 := by norm_num
        rw [h24, div_mul_eq_mul_div, one_mul, div_le_one (by norm_num)]
        exact hnq'
      linarith
    have hhi : (d : ℚ) / (n : ℚ) < (2 : ℚ) ^ (25 : Int) := by
      rw [div_lt_iff₀ hnq]
      have h25 : (2 : ℚ) ^ (25 : Int) = 2 ^ 25 := by norm_num
      rw [h25]
      have : (1 : ℚ) ≤ (n : ℚ) := by
        have : (1 : Int) ≤ n := by omega
        exact_mod_cast this
      nlinarith
    have habs : |(d : ℚ) / (n : ℚ)| = (d : ℚ) / (n : ℚ) := abs_of_pos hx
    obtain ⟨h1, h2⟩ := log_two_bounds _ (ne_of_gt hx)
    have ge : -24 ≤ Int.log 2 |(d : ℚ) / (n : ℚ)| :=
      (Int.zpow_le_iff_le_log (by norm_num) (abs_pos.mpr (ne_of_gt hx))).mp
        (by rw [habs]; simpa using hlo)
    have le : Int.log 2 |(d : ℚ) / (n : ℚ)| < 25 :=
      (Int.lt_zpow_iff_log_lt (by norm_num) (abs_pos.mpr (ne_of_gt hx))).mp
        (by rw [habs]; simpa using hhi)
    have h1' : (2 : ℚ) ^ Int.log 2 |(d : ℚ) / (n : ℚ)| ≤ (d : ℚ) / (n : ℚ) :=
      le_of_le_of_eq h1 habs
    have h2' : (d : ℚ) / (n : ℚ) < (2 : ℚ) ^ (Int.log 2 |(d : ℚ) / (n : ℚ)| + 1) :=
      lt_of_eq_of_lt habs.symm h2
    obtain ⟨M, hM, herr, -, -⟩ := roundBinary_normal_pos 23 (-126) 127 _ _ h1' h2'
      (by omega) (by omega)
    refine ⟨_, hM, le_trans herr ?_⟩
    have e3 : (2 : ℚ) ^ (Int.log 2 |(d : ℚ) / (n : ℚ)| - ((23 : Nat) : Int)) / 2 =
        (2 : ℚ) ^ Int.log 2 |(d : ℚ) / (n : ℚ)| / 2 ^ 24 := by
      rw [zpow_sub₀ (by norm_num)]
      norm_num
      ring
    rw [e3]
    exact div_le_div_of_nonneg_right h1' (by norm_num)

theorem CFloat.div_finite (a b : ℚ) (hb : b ≠ 0) :
    CFloat.div (CFloat.finite a) (CFloat.finite b) = round32 (a / b) := by
  simp [CFloat.div, hb]

theorem CFloat.ofInt_div_ofInt (d n : Int) (hd : |d| ≤ 2 ^ 24) (hn : |n| ≤ 2 ^ 24)
    (hn0 : n ≠ 0) :
    CFloat.div (CFloat.ofInt d) (CFloat.ofInt n) = round32 ((d : ℚ) / (n : ℚ)) := by
  rw [CFloat.ofInt_of_abs_le d hd, CFloat.ofInt_of_abs_le n hn,
    CFloat.div_finite _ _ (by exact_mod_cast hn0)]

theorem CFloat.ofInt_add_ofInt (a b : Int) (ha : |a| ≤ 2 ^ 24) (hb : |b| ≤ 2 ^ 24)
    (hab : |a + b| ≤ 2 ^ 24) :
    CFloat.add (CFloat.ofInt a) (CFloat.ofInt b) = CFloat.finite ((a + b : Int) : ℚ) := by
  rw [CFloat.ofInt_of_abs_le a ha, CFloat.ofInt_of_abs_le b hb]
  have h := round32_of_isBinary32 _ (isBinary32_intCast (a + b) hab)
  simp only [CFloat.add]
  rw [← h]
  push_cast
  rfl

/-- Bounds on the value to which a positive number in the normal range is rounded. -/
theorem roundBinary_normal_pos_bounds (p : Nat) (emin emax : Int) (x : ℚ) (e : Int)
    (h1 : (2 : ℚ) ^ e ≤ x) (h2 : x < (2 : ℚ) ^ (e + 1)) (hemin : emin ≤ e)
    (hemax : e < emax) :
    ∃ M : Int, roundBinary (p + 1) emin emax x = CFloat.finite ((M : ℚ) * (2 : ℚ) ^ (e - (p : Int))) ∧
      2 ^ p ≤ M ∧ M ≤ 2 ^ (p + 1) ∧
      (2 : ℚ) ^ e ≤ (M : ℚ) * (2 : ℚ) ^ (e - (p : Int)) ∧
      (M : ℚ) * (2 : ℚ) ^ (e - (p : Int)) ≤ (2 : ℚ) ^ (e + 1) ∧
      |(M : ℚ) * (2 : ℚ) ^ (e - (p : Int)) - x| ≤ (2 : ℚ) ^ (e - (p : Int)) / 2 := by
  obtain ⟨M, hM, herr, hlo, hhi⟩ := roundBinary_normal_pos p emin emax x e h1 h2 hemin hemax
  have hu := two_zpow_pos (e - (p : Int))
  have he : (2 : ℚ) ^ e = (2 : ℚ) ^ p * (2 : ℚ) ^ (e - (p : Int)) := by
    rw [← zpow_natCast, ← zpow_add₀ (by norm_num)]; congr 1; omega
  have he1 : (2 : ℚ) ^ (e + 1) = (2 : ℚ) ^ (p + 1) * (2 : ℚ) ^ (e - (p : Int)) := by
    rw [← zpow_natCast, ← zpow_add₀ (by norm_num)]; congr 1; push_cast; omega
  have hloq : (2 : ℚ) ^ p ≤ (M : ℚ) := by exact_mod_cast hlo
  have hhiq : (M : ℚ) ≤ (2 : ℚ) ^ (p + 1) := by exact_mod_cast hhi
  refine ⟨M, hM, hlo, hhi, ?_, ?_, herr⟩
  · rw [he]; exact mul_le_mul_of_nonneg_right hloq (le_of_lt hu)
  · rw [he1]; exact mul_le_mul_of_nonneg_right hhiq (le_of_lt hu)

/-- The shape of a positive `float` obtained by rounding a value between `2 ^ lo` and
`2 ^ hi`. -/
theorem round32_shape (x : ℚ) (lo hi : Int) (hlo : (2 : ℚ) ^ lo ≤ x) (hhi : x < (2 : ℚ) ^ hi)
    (h126 : -126 ≤ lo) (h127 : hi ≤ 127) :
    ∃ M k : Int, round32 x = CFloat.finite ((M : ℚ) * (2 : ℚ) ^ k) ∧ 2 ^ 23 ≤ M ∧ M ≤ 2 ^ 24 ∧
      lo - 23 ≤ k ∧ k ≤ hi - 24 ∧ (2 : ℚ) ^ lo ≤ (M : ℚ) * (2 : ℚ) ^ k ∧
      (M : ℚ) * (2 : ℚ) ^ k ≤ (2 : ℚ) ^ hi := by
  have hx : 0 < x := lt_of_lt_of_le (two_zpow_pos lo) hlo
  have habs : |x| = x := abs_of_pos hx
  obtain ⟨h1, h2⟩ := log_two_bounds _ (ne_of_gt hx)
  have ge : lo ≤ Int.log 2 |x| :=
    (Int.zpow_le_iff_le_log (by norm_num) (abs_pos.mpr (ne_of_gt hx))).mp
      (by rw [habs]; simpa using hlo)
  have le : Int.log 2 |x| < hi :=
    (Int.lt_zpow_iff_log_lt (by norm_num) (abs_pos.mpr (ne_of_gt hx))).mp
      (by rw [habs]; simpa using hhi)
  have h1' : (2 : ℚ) ^ Int.log 2 |x| ≤ x := le_of_le_of_eq h1 habs
  have h2' : x < (2 : ℚ) ^ (Int.log 2 |x| + 1) := lt_of_eq_of_lt habs.symm h2
  obtain ⟨M, hM, hM1, hM2, hv1, hv2, -⟩ := roundBinary_normal_pos_bounds 23 (-126) 127 x _ h1' h2'
    (by omega) (by omega)
  have c23 : ((23 : Nat) : Int) = 23 := rfl
  refine ⟨M, Int.log 2 |x| - 23, ?_, hM1, hM2, by omega, by omega, ?_, ?_⟩
  · rw [← c23]; exact hM
  · rw [← c23]
    exact le_trans (zpow_le_zpow_right₀ (by norm_num) ge) hv1
  · rw [← c23]
    exact le_trans hv2 (zpow_le_zpow_right₀ (by norm_num) (by omega))

/-- The conversion `(float)d` of a positive `int`. -/
theorem CFloat.ofInt_of_int_range (d : Int) (hd0 : 0 < d) (hd : d < 2 ^ 31) :
    ∃ y : ℚ, CFloat.ofInt d = CFloat.finite y ∧ 1 ≤ y ∧ y ≤ 2 ^ 31 := by
  have h1 : (2 : ℚ) ^ (0 : Int) ≤ (d : ℚ) := by
    have : (1 : Int) ≤ d := by omega
    have h := (Int.cast_le (R := ℚ)).mpr this
    simpa using h
  have h2 : (d : ℚ) < (2 : ℚ) ^ (31 : Int) := by
    have h := (Int.cast_lt (R := ℚ)).mpr hd
    have e : ((2 ^ 31 : Int) : ℚ) = (2 : ℚ) ^ (31 : Int) := by norm_num
    rw [e] at h; exact h
  obtain ⟨M, k, hM, -, -, -, -, hv1, hv2⟩ := round32_shape (d : ℚ) 0 31 h1 h2
    (by norm_num) (by norm_num)
  refine ⟨_, hM, ?_, ?_⟩
  · simpa using hv1
  · have e : (2 : ℚ) ^ (31 : Int) = 2 ^ 31 := by norm_num
    rw [← e]; exact hv2

/-- The shape of `(float)d / (float)n` for `int` arguments `d ≥ 0` and `n > 0`: zero, or
a significand of 24 bits with an exponent between `-54` and `8`. -/
theorem CFloat.ofInt_div_ofInt_shape (d n : Int) (hd0 : 0 ≤ d) (hd : d < 2 ^ 31)
    (hn0 : 0 < n) (hn : n < 2 ^ 31) :
    CFloat.div (CFloat.ofInt d) (CFloat.ofInt n) = CFloat.finite 0 ∨
      ∃ M k : Int, CFloat.div (CFloat.ofInt d) (CFloat.ofInt n) =
          CFloat.finite ((M : ℚ) * (2 : ℚ) ^ k) ∧
        2 ^ 23 ≤ M ∧ M ≤ 2 ^ 24 ∧ -54 ≤ k ∧ k ≤ 8 := by
  obtain ⟨yn, hyn, hn1, hn2⟩ := CFloat.ofInt_of_int_range n hn0 hn
  have hyn0 : yn ≠ 0 := by linarith
  by_cases hd1 : d = 0
  · subst hd1
    left
    rw [CFloat.ofInt_zero, hyn, CFloat.div_finite _ _ hyn0, zero_div]
    have h := roundBinary_zero 24 (-126) 127
    simpa [round32] using h
  · right
    obtain ⟨yd, hyd, hd1', hd2⟩ := CFloat.ofInt_of_int_range d (by omega) hd
    rw [hyd, hyn, CFloat.div_finite _ _ hyn0]
    have hynpos : (0 : ℚ) < yn := by linarith
    have hlo : (2 : ℚ) ^ (-31 : Int) ≤ yd / yn := by
      rw [le_div_iff₀ hynpos]
      have h31 : (2 : ℚ) ^ (-31 : Int) = 1 / 2 ^ 31 := by norm_num
      rw [h31, div_mul_eq_mul_div, one_mul]
      calc yn / 2 ^ 31 ≤ 1 := by rw [div_le_one (by norm_num)]; exact hn2
        _ ≤ yd := hd1'
    have hhi : yd / yn < (2 : ℚ) ^ (32 : Int) := by
      rw [div_lt_iff₀ hynpos]
      have h32 : (2 : ℚ) ^ (32 : Int) = 2 ^ 32 := by norm_num
      rw [h32]
      nlinarith
    obtain ⟨M, k, hM, hM1, hM2, hk1, hk2, -, -⟩ := round32_shape (yd / yn) (-31) 32 hlo hhi
      (by norm_num) (by norm_num)
    exact ⟨M, k, hM, hM1, hM2, by omega, by omega⟩

theorem round32_one : round32 1 = CFloat.finite 1 := by
  have h := round32_of_isBinary32 _ (isBinary32_intCast 1 (by norm_num))
  simpa using h

theorem round64_one : round64 1 = CFloat.finite 1 := by
  have h := round64_of_isBinary64 _ (isBinary32_intCast 1 (by norm_num)).isBinary64
  simpa using h

/-- A value at most `2 ^ (-26)` below one is rounded to one. -/
theorem round32_near_one (y : ℚ) (h1 : 1 - (2 : ℚ) ^ (-26 : Int) ≤ y) (h2 : y ≤ 1) :
    round32 y = CFloat.finite 1 := by
  by_cases hy : y = 1
  · rw [hy, round32_one]
  · have hlt : y < 1 := lt_of_le_of_ne h2 hy
    have e26 : (2 : ℚ) ^ (-26 : Int) = 1 / 67108864 := by norm_num
    rw [e26] at h1
    have hpos : 0 < y := by linarith
    have h := round32_eq_of_near y (-1) (2 ^ 24)
      (by rw [abs_of_pos hpos]; norm_num; linarith)
      (by rw [abs_of_pos hpos]; norm_num; linarith)
      (by norm_num)
      (by
        norm_num
        rw [abs_lt]
        constructor <;> linarith)
      (by norm_num)
    rw [h]
    norm_num

/-- For a `float` `w` with an exponent between `-52` and `8`, the difference `1 - w` is a
value of the type `double`. -/
theorem isBinary64_one_sub (M k : Int) (hM1 : 2 ^ 23 ≤ M) (hM2 : M ≤ 2 ^ 24)
    (hk1 : -52 ≤ k) (hk2 : k ≤ 8) : IsBinary64 (1 - (M : ℚ) * (2 : ℚ) ^ k) := by
  have hMq1 : (2 : ℚ) ^ 23 ≤ (M : ℚ) := by exact_mod_cast hM1
  have hMq2 : (M : ℚ) ≤ (2 : ℚ) ^ 24 := by exact_mod_cast hM2
  have hk := two_zpow_pos k
  have hk8 : (2 : ℚ) ^ k ≤ (2 : ℚ) ^ (8 : Int) := zpow_le_zpow_right₀ (by norm_num) hk2
  have e8 : (2 : ℚ) ^ (8 : Int) = 256 := by norm_num
  rw [e8] at hk8
  have hw0 : 0 < (M : ℚ) * (2 : ℚ) ^ k := mul_pos (by linarith [show (0 : ℚ) < 2 ^ 23 by norm_num]) hk
  have hw1 : (M : ℚ) * (2 : ℚ) ^ k ≤ 2 ^ 24 * 256 :=
    mul_le_mul hMq2 hk8 (le_of_lt hk) (by norm_num)
  have hbig : (2 : ℚ) ^ (33 : Int) < (2 : ℚ) ^ ((1023 : Int) + 1) :=
    zpow_lt_zpow_right₀ (by norm_num) (by norm_num)
  have e33 : (2 : ℚ) ^ (33 : Int) = 8589934592 := by norm_num
  rw [e33] at hbig
  have hmax : |1 - (M : ℚ) * (2 : ℚ) ^ k| < (2 : ℚ) ^ ((1023 : Int) + 1) := by
    rw [abs_lt]
    constructor
    · norm_num at hw1 ⊢; linarith
    · linarith
  rcases le_or_lt k 0 with hk0 | hk0
  · obtain ⟨n, hn⟩ := Int.eq_ofNat_of_zero_le (show 0 ≤ -k by omega)
    have hn52 : n ≤ 52 := by omega
    have hpow : (2 : Int) ^ n ≤ 2 ^ 52 := pow_le_pow_right₀ (by norm_num) hn52
    have hpow1 : (1 : Int) ≤ 2 ^ n := one_le_pow₀ (by norm_num)
    have e1 : (2 : ℚ) ^ n * (2 : ℚ) ^ k = 1 := by
      rw [← zpow_natCast, ← zpow_add₀ (by norm_num)]
      have : (n : Int) + k = 0 := by omega
      rw [this, zpow_zero]
    have ex : 1 - (M : ℚ) * (2 : ℚ) ^ k = ((2 ^ n - M : Int) : ℚ) * (2 : ℚ) ^ k := by
      push_cast
      rw [sub_mul, e1]
    refine ⟨2 ^ n - M, k, ?_, ?_, ?_, ex⟩
    · rw [abs_lt]
      constructor
      · norm_num at hM2 ⊢; linarith
      · norm_num at hM1 hpow ⊢; linarith
    · have : ((53 : Nat) : Int) = 53 := rfl
      omega
    · rw [← ex]; exact hmax
  · obtain ⟨n, hn⟩ := Int.eq_ofNat_of_zero_le (le_of_lt hk0)
    have hn8 : n ≤ 8 := by omega
    have hpow : (2 : Int) ^ n ≤ 2 ^ 8 := pow_le_pow_right₀ (by norm_num) hn8
    have hpow1 : (1 : Int) ≤ 2 ^ n := one_le_pow₀ (by norm_num)
    have ex : 1 - (M : ℚ) * (2 : ℚ) ^ k = ((1 - M * 2 ^ n : Int) : ℚ) * (2 : ℚ) ^ (0 : Int) := by
      push_cast
      rw [hn, zpow_natCast, zpow_zero, mul_one]
    have hprod : M * 2 ^ n ≤ 2 ^ 24 * 2 ^ 8 :=
      mul_le_mul hM2 hpow (by positivity) (by norm_num)
    have hprod0 : 0 ≤ M * 2 ^ n := mul_nonneg (by linarith [show (0 : Int) < 2 ^ 23 by norm_num]) (by positivity)
    refine ⟨1 - M * 2 ^ n, 0, ?_, ?_, ?_, ex⟩
    · rw [abs_lt]
      constructor
      · norm_num at hprod ⊢; linarith
      · norm_num; linarith
    · have : ((53 : Nat) : Int) = 53 := rfl
      omega
    · rw [← ex]; exact hmax

/-- No double rounding: for a `float` `w` that is zero or has a 24 bit significand and an
exponent between `-54` and `8`, the subtraction `1.0 - w` computed in `double` and
converted to `float` is the subtraction `1 - w` computed in `float`. -/
theorem CFloat.one_sub_double_eq (w : ℚ)
    (hw : w = 0 ∨ ∃ M k : Int, w = (M : ℚ) * (2 : ℚ) ^ k ∧ 2 ^ 23 ≤ M ∧ M ≤ 2 ^ 24 ∧
      -54 ≤ k ∧ k ≤ 8) :
    CFloat.toFloat (CFloat.subDouble (CFloat.finite 1) (CFloat.finite w)) =
      CFloat.sub (CFloat.finite 1) (CFloat.finite w) := by
  simp only [CFloat.subDouble, CFloat.sub, CFloat.subWith]
  rcases hw with rfl | ⟨M, k, rfl, hM1, hM2, hk1, hk2⟩
  · rw [sub_zero, round64_one, round32_one]
    exact round32_one
  · rcases le_or_lt (-52) k with hk | hk
    · rw [round64_of_isBinary64 _ (isBinary64_one_sub M k hM1 hM2 hk hk2)]
      rfl
    · have hMq1 : (2 : ℚ) ^ 23 ≤ (M : ℚ) := by exact_mod_cast hM1
      have hMq2 : (M : ℚ) ≤ (2 : ℚ) ^ 24 := by exact_mod_cast hM2
      have hkpos := two_zpow_pos k
      have hk53 : (2 : ℚ) ^ k ≤ (2 : ℚ) ^ (-53 : Int) :=
        zpow_le_zpow_right₀ (by norm_num) (by omega)
      have e53 : (2 : ℚ) ^ (-53 : Int) = 1 / 2 ^ 53 := by norm_num
      rw [e53] at hk53
      have hw0 : 0 < (M : ℚ) * (2 : ℚ) ^ k :=
        mul_pos (by linarith [show (0 : ℚ) < 2 ^ 23 by norm_num]) hkpos
      have hw1 : (M : ℚ) * (2 : ℚ) ^ k ≤ 2 ^ 24 * (1 / 2 ^ 53) :=
        mul_le_mul hMq2 hk53 (le_of_lt hkpos) (by norm_num)
      have hw2 : (M : ℚ) * (2 : ℚ) ^ k ≤ 1 / 536870912 := by
        norm_num at hw1 ⊢; exact hw1
      have e26 : (2 : ℚ) ^ (-26 : Int) = 1 / 67108864 := by norm_num
      -- the subtraction in `float`
      have h32 : round32 (1 - (M : ℚ) * (2 : ℚ) ^ k) = CFloat.finite 1 :=
        round32_near_one _ (by rw [e26]; linarith) (by linarith)
      -- the subtraction in `double`
      obtain ⟨N, hN, -, -, -, hv2, herr⟩ := roundBinary_normal_pos_bounds 52 (-1022) 1023
        (1 - (M : ℚ) * (2 : ℚ) ^ k) (-1) (by norm_num; linarith) (by norm_num; linarith)
        (by norm_num) (by norm_num)
      have h64 : round64 (1 - (M : ℚ) * (2 : ℚ) ^ k) =
          CFloat.finite ((N : ℚ) * (2 : ℚ) ^ ((-1 : Int) - ((52 : Nat) : Int))) := hN
      rw [h64, h32]
      norm_num at hv2 herr
      rw [abs_le] at herr
      exact round32_near_one _ (by rw [e26]; norm_num; linarith) (by norm_num; linarith)

theorem CFloat.one_sub_div_zero_not_finite (d : Int) :
    (CFloat.sub (CFloat.ofInt 1) (CFloat.div (CFloat.ofInt d) (CFloat.ofInt 0))).isFinite
      = false := by
  rw [CFloat.ofInt_of_abs_le 1 (by norm_num)]
  exact CFloat.finite_sub_not_finite _ _ _ (CFloat.div_zero_not_finite d)

theorem round32_one_third : round32 (1 / 3) = CFloat.finite (11184811 / 33554432) := by
  have h := round32_eq_of_near (1 / 3) (-2) 11184811
    (by norm_num [abs_of_pos]) (by norm_num [abs_of_pos]) (by norm_num)
    (by norm_num [abs_lt]) (by norm_num [abs_lt])
  rw [h]
  norm_num

theorem WordAccuracy_of_isBinary32 (w : ℚ) (h : IsBinary32 (1 - w)) :
    WordAccuracy (CFloat.finite w) = CFloat.finite (1 - w) := by
  simp only [WordAccuracy, CFloat.subDouble, CFloat.subWith]
  rw [round64_of_isBinary64 _ h.isBinary64]
  exact round32_of_isBinary32 _ h

/-! ## Further facts on the reference distance and the mismatch count -/

theorem editDistance_eq_zero : ∀ A B : List Nat, editDistance A B = 0 → A = B
  | [], B, h => by
    rw [editDistance_nil_left] at h
    exact (List.length_eq_zero.mp h).symm
  | a :: A, [], h => by
    rw [editDistance_nil_right] at h
    simp at h
  | a :: A, b :: B, h => by
    rw [editDistance_cons_cons] at h
    by_cases hab : a = b
    · rw [if_pos hab] at h
      have h0 : editDistance A B = 0 := by omega
      rw [hab, editDistance_eq_zero A B h0]
    · rw [if_neg hab] at h
      omega

theorem mismatchCount_zero (A B : List Nat) : mismatchCount 0 A B = 0 := rfl

theorem mismatchCount_cons_cons (a b : Nat) (A B : List Nat) :
    ∀ n : Nat, mismatchCount (n + 1) (a :: A) (b :: B) =
      (if a ≠ b then 1 else 0) + mismatchCount n A B
  | 0 => by
    rw [mismatchCount_succ, mismatchCount_zero, mismatchCount_zero]
    simp
  | n + 1 => by
    rw [mismatchCount_succ, mismatchCount_cons_cons a b A B n, mismatchCount_succ n A B]
    simp only [List.getElem?_cons_succ]
    omega

theorem editDistance_le_mismatchCount :
    ∀ A B : List Nat, A.length = B.length → editDistance A B ≤ mismatchCount A.length A B
  | [], [], _ => by simp [editDistance_nil_left]
  | [], b :: B, h => by simp at h
  | a :: A, [], h => by simp at h
  | a :: A, b :: B, h => by
    have hl : A.length = B.length := by simpa using h
    have ih := editDistance_le_mismatchCount A B hl
    have hc := editDistance_cons_cons_le a b A B
    rw [List.length_cons, mismatchCount_cons_cons]
    by_cases hab : a = b
    · simp only [hab, if_true, ne_eq, not_true_eq_false, if_false] at hc ⊢
      omega
    · simp only [hab, if_false, ne_eq, not_false_eq_true, if_true] at hc ⊢
      omega

theorem mismatchCount_append_right (A B C : List Nat) (n : Nat) (hn : n ≤ B.length) :
    mismatchCount n A (B ++ C) = mismatchCount n A B :=
  mismatchCount_congr (fun _ _ => rfl)
    (fun _ hi => List.getElem?_append_left (Nat.lt_of_lt_of_le hi hn))

/-- The function `min` returns the least of its arguments. -/
theorem min_eq_iff_least (a b c : Int) :
    min a b c ≤ a ∧ min a b c ≤ b ∧ min a b c ≤ c ∧
      (min a b c = a ∨ min a b c = b ∨ min a b c = c) := by
  unfold min
  split_ifs <;> omega


/-! ## The claims of the specification, continued -/

/-- C11, as stated, fails: with a reference count of zero `WordErrorRate(1, 0)` raises no
error and returns the infinite value `+inf`. -/
theorem WordErrorRate_zero_reference_returns :
    WordErrorRate 1 0 = CFloat.posInf := by
  simp [WordErrorRate, CFloat.ofInt_div_zero]

/-- C11, amended: no formula checks its reference count and none raises an error.  With
a reference count of zero, `WordErrorRate`, `CharacterErrorRate`, `wer` and `cer` return
NaN for the distance zero and an infinity with the sign of the distance otherwise;
`wacc` and `CharacterInformationPreserve` return a value that is not finite. -/
theorem zero_reference_not_finite (d hits p : Int) :
    WordErrorRate d 0 =
        (if d = 0 then CFloat.nan else if 0 < d then CFloat.posInf else CFloat.negInf) ∧
      CharacterErrorRate d 0 =
        (if d = 0 then CFloat.nan else if 0 < d then CFloat.posInf else CFloat.negInf) ∧
      wer 0 d =
        (if d = 0 then CFloat.nan else if 0 < d then CFloat.posInf else CFloat.negInf) ∧
      cer 0 d =
        (if d = 0 then CFloat.nan else if 0 < d then CFloat.posInf else CFloat.negInf) ∧
      (wacc 0 d).isFinite = false ∧
      (CharacterInformationPreserve hits 0 p).isFinite = false :=
  ⟨CFloat.ofInt_div_zero d, CFloat.ofInt_div_zero d, CFloat.ofInt_div_zero d,
    CFloat.ofInt_div_zero d, CFloat.one_sub_div_zero_not_finite d,
    CFloat.mul_not_finite_of_div_zero hits p⟩

/-- C12, as stated, fails: `WordErrorRate(1, 3)` is computed on `float` and returns
`11184811 / 33554432`, the value of the type nearest to one third, not the exact quotient
`1 / 3`. -/
theorem WordErrorRate_one_third_rounded :
    WordErrorRate 1 3 = CFloat.finite (11184811 / 33554432) ∧
      (11184811 / 33554432 : ℚ) ≠ 1 / 3 := by
  refine ⟨?_, by norm_num⟩
  have h := CFloat.ofInt_div_ofInt 1 3 (by norm_num) (by norm_num) (by norm_num)
  rw [WordErrorRate, h]
  have e : ((1 : Int) : ℚ) / ((3 : Int) : ℚ) = 1 / 3 := by norm_num
  rw [e, round32_one_third]

/-- C12, amended: for a distance `0 ≤ d ≤ 2 ^ 24` and a reference count
`0 < n ≤ 2 ^ 24`, `WordErrorRate(d, n)` is the quotient `d / n` rounded to `float`
(first argument the distance, second the reference count): a finite value within the
relative error `2 ^ (-24)` of `d / n`, and exactly `d / n` when that quotient is a value
of the type `float`; `CharacterErrorRate` computes the same value. -/
theorem WordErrorRate_rounded_quotient (d n : Int) (hd0 : 0 ≤ d) (hd : d ≤ 2 ^ 24)
    (hn0 : 0 < n) (hn : n ≤ 2 ^ 24) :
    WordErrorRate d n = round32 ((d : ℚ) / (n : ℚ)) ∧
      CharacterErrorRate d n = round32 ((d : ℚ) / (n : ℚ)) ∧
      (∃ q : ℚ, WordErrorRate d n = CFloat.finite q ∧
        |q - (d : ℚ) / (n : ℚ)| ≤ (d : ℚ) / (n : ℚ) / 2 ^ 24) ∧
      (IsBinary32 ((d : ℚ) / (n : ℚ)) →
        WordErrorRate d n = CFloat.finite ((d : ℚ) / (n : ℚ))) := by
  have h := CFloat.ofInt_div_ofInt d n (by rw [abs_of_nonneg hd0]; exact hd)
    (by rw [abs_of_pos hn0]; exact hn) (by omega)
  obtain ⟨q, hq, herr⟩ := round32_quotient d n hd0 hd hn0 hn
  refine ⟨h, h, ⟨q, h.trans hq, herr⟩, fun hb => h.trans (round32_of_isBinary32 _ hb)⟩

/-- C12, amended, at the sample of the specification: `WordErrorRate(10, 20) = 0.5`, the
quotient `10 / 20` being a value of the type `float`. -/
theorem WordErrorRate_rounded_quotient_witness :
    WordErrorRate 10 20 = CFloat.finite (1 / 2) := by
  have h := (WordErrorRate_rounded_quotient 10 20 (by norm_num) (by norm_num) (by norm_num)
    (by norm_num)).2.2.2 ⟨1, -1, by norm_num, by norm_num, by norm_num [abs_lt], by norm_num⟩
  rw [h]
  norm_num

/-- C13, as stated, fails: for the `float` value `wer = 13421773 / 134217728` (the `float`
nearest to `0.1`), `WordAccuracy(wer)` returns `7549747 / 8388608`, which is not
`1 - wer`. -/
theorem WordAccuracy_one_tenth_rounded :
    IsBinary32 (13421773 / 134217728) ∧
      WordAccuracy (CFloat.finite (13421773 / 134217728)) =
        CFloat.finite (7549747 / 8388608) ∧
      (7549747 / 8388608 : ℚ) ≠ 1 - 13421773 / 134217728 := by
  refine ⟨⟨13421773, -27, by norm_num, by norm_num, by norm_num [abs_lt], by norm_num⟩, ?_,
    by norm_num⟩
  have h64 : IsBinary64 (1 - 13421773 / 134217728) :=
    ⟨120795955, -27, by norm_num, by norm_num, by norm_num [abs_lt], by norm_num⟩
  simp only [WordAccuracy, CFloat.subDouble, CFloat.subWith]
  rw [round64_of_isBinary64 _ h64]
  have h := round32_eq_of_near (1 - 13421773 / 134217728) (-1) 15099494
    (by norm_num [abs_of_pos]) (by norm_num [abs_of_pos]) (by norm_num)
    (by norm_num [abs_lt]) (by norm_num [abs_lt])
  simp only [CFloat.toFloat]
  rw [h]
  norm_num

/-- C13, amended: `WordAccuracy(wer)` is `1 - wer` rounded to `float`.  It is exactly
`1 - wer` when that difference is a value of the type `float`; for the value `wer`
returned by `WordErrorRate(d, n)` with `0 ≤ d ≤ 2 ^ 24` and `0 < n ≤ 2 ^ 24` it is the
`float` nearest to `1 - wer`; and `WordAccuracy(WordErrorRate(d, n)) = (n - d) / n`
when both `d / n` and `(n - d) / n` are values of the type `float`. -/
theorem WordAccuracy_rounded (w : ℚ) (d n : Int) (hd0 : 0 ≤ d) (hd : d ≤ 2 ^ 24)
    (hn0 : 0 < n) (hn : n ≤ 2 ^ 24) :
    (IsBinary32 (1 - w) → WordAccuracy (CFloat.finite w) = CFloat.finite (1 - w)) ∧
      (∃ v : ℚ, WordErrorRate d n = CFloat.finite v ∧
        WordAccuracy (CFloat.finite v) = round32 (1 - v)) ∧
      (IsBinary32 ((d : ℚ) / (n : ℚ)) → IsBinary32 (((n : ℚ) - (d : ℚ)) / (n : ℚ)) →
        WordAccuracy (WordErrorRate d n) = CFloat.finite (((n : ℚ) - (d : ℚ)) / (n : ℚ))) := by
  refine ⟨WordAccuracy_of_isBinary32 w, ?_, ?_⟩
  · rcases CFloat.ofInt_div_ofInt_shape d n hd0 (by omega) hn0 (by omega) with h | ⟨M, k, h, hs⟩
    · exact ⟨0, h, CFloat.one_sub_double_eq 0 (Or.inl rfl)⟩
    · exact ⟨_, h, CFloat.one_sub_double_eq _ (Or.inr ⟨M, k, rfl, hs⟩)⟩
  · intro h1 h2
    have hq : (n : ℚ) ≠ 0 := by
      have : n ≠ 0 := by omega
      exact_mod_cast this
    have e : (1 : ℚ) - (d : ℚ) / (n : ℚ) = ((n : ℚ) - (d : ℚ)) / (n : ℚ) := by
      field_simp
    have h := CFloat.ofInt_div_ofInt d n (by rw [abs_of_nonneg hd0]; exact hd)
      (by rw [abs_of_pos hn0]; exact hn) (by omega)
    rw [WordErrorRate, h, round32_of_isBinary32 _ h1, ← e]
    exact WordAccuracy_of_isBinary32 _ (by rw [e]; exact h2)

/-- C13, amended, at the sample of the specification: `WordAccuracy(0.5) = 0.5`, and
`WordAccuracy(WordErrorRate(10, 20)) = 0.5`. -/
theorem WordAccuracy_rounded_witness :
    WordAccuracy (CFloat.finite (1 / 2)) = CFloat.finite (1 / 2) ∧
      WordAccuracy (WordErrorRate 10 20) = CFloat.finite (1 / 2) := by
  have hb : IsBinary32 (1 / 2) :=
    ⟨1, -1, by norm_num, by norm_num, by norm_num [abs_lt], by norm_num⟩
  obtain ⟨h1, -, h3⟩ := WordAccuracy_rounded (1 / 2) 10 20 (by norm_num) (by norm_num)
    (by norm_num) (by norm_num)
  constructor
  · rw [h1 (by norm_num; exact hb)]
    norm_num
  · rw [h3 (by norm_num; exact hb) (by norm_num; exact hb)]
    norm_num

/-- C14, as stated, fails: `MatchErrorRate(2, 1)` is computed on `float` and returns
`11184811 / 33554432`, not the exact quotient `1 / (2 + 1)`. -/
theorem MatchErrorRate_one_third_rounded :
    MatchErrorRate 2 1 = CFloat.finite (11184811 / 33554432) ∧
      (11184811 / 33554432 : ℚ) ≠ 1 / (2 + 1) := by
  refine ⟨?_, by norm_num⟩
  rw [MatchErrorRate, CFloat.ofInt_add_ofInt 2 1 (by norm_num) (by norm_num) (by norm_num),
    CFloat.ofInt_of_abs_le 1 (by norm_num), CFloat.div_finite _ _ (by norm_num)]
  have e : ((1 : Int) : ℚ) / (((2 + 1 : Int)) : ℚ) = 1 / 3 := by norm_num
  rw [e, round32_one_third]

/-- C14, amended: for `hits ≥ 0` and a distance `d ≥ 0` with `0 < hits + d ≤ 2 ^ 24`,
`MatchErrorRate(hits, d)` is the quotient `d / (hits + d)` rounded to `float` (first
argument the hit count, second the distance): a finite value within the relative error
`2 ^ (-24)` of the quotient, and exactly the quotient when that is a value of the type
`float`. -/
theorem MatchErrorRate_rounded_quotient (hits d : Int) (hh : 0 ≤ hits) (hd : 0 ≤ d)
    (hpos : 0 < hits + d) (hle : hits + d ≤ 2 ^ 24) :
    MatchErrorRate hits d = round32 ((d : ℚ) / ((hits : ℚ) + (d : ℚ))) ∧
      (∃ q : ℚ, MatchErrorRate hits d = CFloat.finite q ∧
        |q - (d : ℚ) / ((hits : ℚ) + (d : ℚ))| ≤ (d : ℚ) / ((hits : ℚ) + (d : ℚ)) / 2 ^ 24) ∧
      (IsBinary32 ((d : ℚ) / ((hits : ℚ) + (d : ℚ))) →
        MatchErrorRate hits d = CFloat.finite ((d : ℚ) / ((hits : ℚ) + (d : ℚ)))) := by
  have hne : ((hits + d : Int) : ℚ) ≠ 0 := by
    have : hits + d ≠ 0 := by omega
    exact_mod_cast this
  have h : MatchErrorRate hits d = round32 ((d : ℚ) / ((hits : ℚ) + (d : ℚ))) := by
    rw [MatchErrorRate, CFloat.ofInt_add_ofInt hits d (by rw [abs_of_nonneg hh]; omega)
      (by rw [abs_of_nonneg hd]; omega) (by rw [abs_of_pos hpos]; exact hle),
      CFloat.ofInt_of_abs_le d (by rw [abs_of_nonneg hd]; omega), CFloat.div_finite _ _ hne]
    push_cast
    rfl
  obtain ⟨q, hq, herr⟩ := round32_quotient d (hits + d) hd (by omega) hpos hle
  push_cast at hq herr
  exact ⟨h, ⟨q, h.trans hq, herr⟩, fun hb => h.trans (round32_of_isBinary32 _ hb)⟩

/-- C14, amended, at `hits = 30`, `d = 10`: the rate is `0.25`, a value of the type
`float`. -/
theorem MatchErrorRate_rounded_quotient_witness :
    MatchErrorRate 30 10 = CFloat.finite (1 / 4) := by
  have h := (MatchErrorRate_rounded_quotient 30 10 (by norm_num) (by norm_num) (by norm_num)
    (by norm_num)).2.2 ⟨1, -2, by norm_num, by norm_num, by norm_num [abs_lt], by norm_num⟩
  rw [h]
  norm_num

/-- C15: the matrix built by `levenshtein(seq1, seq2)` has `len(seq2)+1` rows and
`len(seq1)+1` columns; the three loops return (a read of a cell that is not yet written
would make them fail), and in the filled matrix `cell(0,0) = 0`, `cell(i,0) = i`,
`cell(0,j) = j` and, for `i, j ≥ 1`, `cell(i,j)` is the least of `cell(i-1,j)+1`,
`cell(i,j-1)+1` and `cell(i-1,j-1) + (0 if seq1[j-1] = seq2[i-1] else 1)`; the value
returned is `cell(len(seq2), len(seq1))`. -/
theorem levenshtein_matrix_invariant (A B : List Nat) (hA : NoNul A) (hB : NoNul B)
    (hlA : A.length < INT_MAX) (hlB : B.length < INT_MAX) :
    ∃ (m : Matrix) (c : Nat → Nat → Nat),
      levenshteinMatrix (cstr A) (cstr B) = some (m, A.length, B.length) ∧
      m.rows = B.length + 1 ∧ m.cols = A.length + 1 ∧
      (∀ i j, i ≤ B.length → j ≤ A.length → m.read i j = some (c i j)) ∧
      c 0 0 = 0 ∧ (∀ i, i ≤ B.length → c i 0 = i) ∧ (∀ j, j ≤ A.length → c 0 j = j) ∧
      (∀ i j (hi : i < B.length) (hj : j < A.length),
        c (i + 1) (j + 1) =
          Min.min (c i (j + 1) + 1)
            (Min.min (c (i + 1) j + 1) (c i j + if A[j] = B[i] then 0 else 1))) ∧
      levenshtein (cstr A) (cstr B) = some ((c B.length A.length : Nat) : Int) := by
  obtain ⟨m, hm, hF⟩ := levenshteinMatrix_cstr hA hB hlA hlB
  refine ⟨m, prefixDistance A B, hm, hF.1, hF.2.1, fun i j hi hj => hF.read hi hj trivial,
    prefixDistance_zero_right A B 0 (Nat.zero_le _),
    fun i hi => prefixDistance_zero_right A B i hi,
    fun j hj => prefixDistance_zero_left A B j hj,
    fun i j hi hj => prefixDistance_succ_succ A B i j hi hj, ?_⟩
  rw [prefixDistance_length]
  exact levenshtein_cstr hA hB hlA hlB

/-- C15, at `seq1 = "kitten"`, `seq2 = "sitting"`: the matrix has 8 rows and 7 columns. -/
theorem levenshtein_matrix_invariant_witness :
    ∃ (m : Matrix) (c : Nat → Nat → Nat),
      levenshteinMatrix (cstr kitten) (cstr sitting) = some (m, 6, 7) ∧
      m.rows = 8 ∧ m.cols = 7 ∧
      (∀ i j, i ≤ 7 → j ≤ 6 → m.read i j = some (c i j)) ∧
      c 0 0 = 0 ∧ (∀ i, i ≤ 7 → c i 0 = i) ∧ (∀ j, j ≤ 6 → c 0 j = j) ∧
      (∀ i j (hi : i < sitting.length) (hj : j < kitten.length),
        c (i + 1) (j + 1) =
          Min.min (c i (j + 1) + 1)
            (Min.min (c (i + 1) j + 1) (c i j + if kitten[j] = sitting[i] then 0 else 1))) ∧
      levenshtein (cstr kitten) (cstr sitting) = some ((c 7 6 : Nat) : Int) :=
  levenshtein_matrix_invariant kitten sitting (by decide) (by decide) (by decide) (by decide)

/-- C16: `hamming` runs over the positions of `seq1` only: for `len(A) = len(B)`,
`hamming(A, B ++ C)` and `hamming(A, B)` return the same value, the mismatch count over
the first `len(A)` positions. -/
theorem hamming_ignores_tail (A B C : List Nat) (hA : NoNul A) (hl : A.length ≤ INT_MAX)
    (hAB : A.length = B.length) :
    ∃ d : Int, hamming (cstr A) (cstr (B ++ C)) = some d ∧
      hamming (cstr A) (cstr B) = some d ∧ d = ((mismatchCount A.length A B : Nat) : Int) := by
  refine ⟨_, ?_, hamming_cstr hA hl (Nat.le_of_eq hAB), rfl⟩
  rw [hamming_cstr hA hl (by rw [List.length_append]; omega),
    mismatchCount_append_right A B C A.length (Nat.le_of_eq hAB)]

/-- C16, at `A = "abc"`, `B = "abd"`, `C = "xyz"`: both calls return 1. -/
theorem hamming_ignores_tail_witness :
    ∃ d : Int, hamming (cstr abc) (cstr ([97, 98, 100] ++ [120, 121, 122])) = some d ∧
      hamming (cstr abc) (cstr [97, 98, 100]) = some d ∧
      d = ((mismatchCount abc.length abc [97, 98, 100] : Nat) : Int) :=
  hamming_ignores_tail abc [97, 98, 100] [120, 121, 122] (by decide) (by decide) (by decide)

/-- C17: `min(a, b, c)` is at most each of `a`, `b`, `c` and equal to one of them; one of
the three conditions of the function holds, so the final `return(0)` is not reached. -/
theorem min_least_and_total (a b c : Int) :
    min a b c ≤ a ∧ min a b c ≤ b ∧ min a b c ≤ c ∧
      (min a b c = a ∨ min a b c = b ∨ min a b c = c) ∧
      ((a ≤ b ∧ a ≤ c) ∨ (b ≤ a ∧ b ≤ c) ∨ (c ≤ a ∧ c ≤ b)) := by
  obtain ⟨h1, h2, h3, h4⟩ := min_eq_iff_least a b c
  exact ⟨h1, h2, h3, h4, by omega⟩

/-- C18: `levenshtein(A, B)` returns `0` only if `A = B` (and it does return `0` when
`A = B`). -/
theorem levenshtein_eq_zero_iff (A B : List Nat) (hA : NoNul A) (hB : NoNul B)
    (hlA : A.length < INT_MAX) (hlB : B.length < INT_MAX) :
    ∃ d : Int, levenshtein (cstr A) (cstr B) = some d ∧ (d = 0 ↔ A = B) := by
  refine ⟨_, levenshtein_cstr hA hB hlA hlB, ?_, ?_⟩
  · intro h
    exact editDistance_eq_zero A B (by exact_mod_cast h)
  · intro h
    rw [h, editDistance_self]
    rfl

/-- C18, at `A = "kitten"`, `B = "sitting"`. -/
theorem levenshtein_eq_zero_iff_witness :
    ∃ d : Int, levenshtein (cstr kitten) (cstr sitting) = some d ∧
      (d = 0 ↔ kitten = sitting) :=
  levenshtein_eq_zero_iff kitten sitting (by decide) (by decide) (by decide) (by decide)

/-- C19: for sequences of equal length, `levenshtein(A, B) ≤ hamming(A, B)`: both calls
return, and the edit distance is at most the mismatch count. -/
theorem levenshtein_le_hamming (A B : List Nat) (hA : NoNul A) (hB : NoNul B)
    (hl : A.length < INT_MAX) (hAB : A.length = B.length) :
    ∃ l h : Int, levenshtein (cstr A) (cstr B) = some l ∧
      hamming (cstr A) (cstr B) = some h ∧ l ≤ h := by
  refine ⟨_, _, levenshtein_cstr hA hB hl (by omega),
    hamming_cstr hA (Nat.le_of_lt hl) (Nat.le_of_eq hAB), ?_⟩
  exact_mod_cast editDistance_le_mismatchCount A B hAB

/-- C19, at `A = "karolin"`, `B = "kathrin"`. -/
theorem levenshtein_le_hamming_witness :
    ∃ l h : Int, levenshtein (cstr karolin) (cstr kathrin) = some l ∧
      hamming (cstr karolin) (cstr kathrin) = some h ∧ l ≤ h :=
  levenshtein_le_hamming karolin kathrin (by decide) (by decide) (by decide) (by decide)

end KaMi
